import Mathlib

/-!
# g-shell: tokenizer and pipeline builder

A shallow embedding of `src/g_shell.go` (package `main`): the tokenizer
(`tokenizeMetaChars`, `tokenize`) and the pipeline builder / launcher
(`processCmd`), followed by theorems about them.

Conventions of the embedding

* A Go `string` is a list of Unicode code points (`Str`).  The three
  metacharacters and every whitespace character of ASCII are single bytes, so
  byte-wise prefix tests of the source agree with code-point-wise tests here.
* The process-wide variable `lastExitCode` is passed explicitly.
* Calls into the operating system (`exec.LookPath`, `os.Open`, `os.OpenFile`,
  `os.Pipe`, `os.StartProcess`, `Process.Wait`) are answered by an `Env`, a
  script that gives the outcome of the k-th call of each kind; every effect is
  appended to a trace of `Event`s.
* A Go run-time panic (index out of range) is an explicit outcome.
-/

namespace GShell

/-! ## Strings and the Go standard library functions the source calls -/

/-- Go `string`, as the list of its code points. -/
abbrev Str := List Char

/-- Go `unicode.IsSpace`: the Latin-1 white space characters
`\t \n \v \f \r`, space, U+0085, U+00A0, and the `White_Space` property beyond
Latin-1. -/
def isSpace (c : Char) : Bool :=
  c = '\t' || c = '\n' || c = Char.ofNat 0x0B || c = Char.ofNat 0x0C || c = '\r' || c = ' '
    || c = Char.ofNat 0x85 || c = Char.ofNat 0xA0 || c = Char.ofNat 0x1680
    || (0x2000 ≤ c.toNat && c.toNat ≤ 0x200A)
    || c = Char.ofNat 0x2028 || c = Char.ofNat 0x2029 || c = Char.ofNat 0x202F
    || c = Char.ofNat 0x205F || c = Char.ofNat 0x3000

/-- Scanning loop of `strings.Fields`: `cur` is the field being read. -/
def fieldsAux : List Char → Str → List Str
  | [], cur => if cur = [] then [] else [cur]
  | c :: cs, cur =>
    if isSpace c then
      if cur = [] then fieldsAux cs [] else cur :: fieldsAux cs []
    else fieldsAux cs (cur ++ [c])

/-- Go `strings.Fields`: the maximal runs of non-space characters, in order;
empty when the string holds only white space. -/
def Fields (s : Str) : List Str := fieldsAux s []

/-- Go `strings.CutPrefix(s, pre)`: `(s` without the leading `pre`, `true)` when
`s` starts with `pre`, and `(s, false)` otherwise. -/
def CutPrefix (s pre : Str) : Str × Bool :=
  if pre.isPrefixOf s then (s.drop pre.length, true) else (s, false)

/-- Go `strconv.Itoa`: the decimal representation of an integer. -/
def Itoa (i : Int) : Str :=
  match i with
  | Int.ofNat n => Nat.toDigits 10 n
  | Int.negSucc n => '-' :: Nat.toDigits 10 (n + 1)

/-! ## Tokenizer (`g_shell.go`, lines 96-122) -/

/-- The slice `[]string{"<", ">", "|"}` ranged over by `tokenizeMetaChars`. -/
def metaChars : List Str := [['<'], ['>'], ['|']]

/-- The `for _, c := range ...` loop of `tokenizeMetaChars` over the remaining
candidates `cs`. -/
def tokenizeMetaCharsLoop (token : Str) : List Str → List Str
  | [] => [token]
  | c :: cs =>
    let (after, found) := CutPrefix token c
    if found then
      let res := [c]
      if after.length > 0 then res ++ [after] else res
    else tokenizeMetaCharsLoop token cs

/-- Source function `tokenizeMetaChars`. -/
def tokenizeMetaChars (token : Str) : List Str :=
  tokenizeMetaCharsLoop token metaChars

/-- The token `"$?"`. -/
def exitCodeVar : Str := ['$', '?']

/-- First loop of `tokenize`: `tokens = append(tokens, tokenizeMetaChars(tok)...)`
for each field. -/
def tokenizeSplit (cmdline : Str) : List Str :=
  (Fields cmdline).foldl (fun tokens tok => tokens ++ tokenizeMetaChars tok) []

/-- Second loop of `tokenize` ("Shell variable expansion"): for each index `i`,
`if tokens[i] == "$?" then tokens[i] = strconv.Itoa(lastExitCode)`. -/
def expandVars (lastExitCode : Int) (tokens : List Str) : List Str :=
  (List.range tokens.length).foldl
    (fun toks i => if toks[i]? = some exitCodeVar then toks.set i (Itoa lastExitCode) else toks)
    tokens

/-- Source function `tokenize`, with the global `lastExitCode` as a parameter. -/
def tokenize (lastExitCode : Int) (cmdline : Str) : List Str :=
  expandVars lastExitCode (tokenizeSplit cmdline)

/-! ## The operating system, as seen by `processCmd` -/

/-- The flags of package `os` that `os.Open` and `os.OpenFile` can be given. -/
inductive OpenFlag where
  | O_RDONLY | O_WRONLY | O_RDWR | O_APPEND | O_CREATE | O_EXCL | O_SYNC | O_TRUNC
  deriving DecidableEq, Repr

/-- A value of type `*os.File`. `fd k name flags` is the file returned by the
`k`-th open call of this `processCmd` run; `pipeRead k` and `pipeWrite k` are
the two ends returned by the `k`-th `os.Pipe` call; `nil` is what a failed
`os.Pipe` returns. -/
inductive File where
  | Stdin | Stdout | Stderr
  | fd (k : Nat) (name : Str) (flags : List OpenFlag)
  | pipeRead (k : Nat)
  | pipeWrite (k : Nat)
  | nil
  deriving DecidableEq, Repr

/-- Go `os.ProcAttr`, reduced to its field `Files`, a slice that has length 3
throughout `processCmd`: `Files0` is `Files[0]` (standard input), `Files1` is
`Files[1]` (standard output), `Files2` is `Files[2]` (standard error). -/
structure ProcAttr where
  Files0 : File
  Files1 : File
  Files2 : File
  deriving DecidableEq, Repr

/-- Outcomes of the system calls made by one run of `processCmd`, as a
script: the argument `k` is the number of earlier calls of the same kind in
this run, so that `lookPath k` is the outcome of the `k`-th resolution (from 0),
whatever name it is asked for. A process is named by the index of the
`os.StartProcess` call that created it. -/
structure Env where
  /-- `exec.LookPath`: the resolved path, or `none` for an error. -/
  lookPath : Nat → Option Str
  /-- `os.Open` / `os.OpenFile`: whether the call succeeds. -/
  openFile : Nat → Bool
  /-- `os.Pipe`: whether the call succeeds. -/
  pipe : Nat → Bool
  /-- `os.StartProcess`: whether the call succeeds. -/
  startProcess : Nat → Bool
  /-- `Process.Wait` on process `p`: `some c` is a `ProcessState` with exit
  code `c` and a nil error, `none` is a nil `ProcessState` and an error. -/
  wait : Nat → Option Int

/-- Go `(*ProcessState).ExitCode`: `-1` on a nil receiver. -/
def ExitCode (pstate : Option Int) : Int :=
  match pstate with
  | none => -1
  | some c => c

/-- Observable effects of `processCmd`, in the order they happen. -/
inductive Event where
  | lookPath (file : Str) (res : Option Str)
  | openFile (name : Str) (flags : List OpenFlag) (res : Option File)
  | pipe (res : Option (File × File))
  | startProcess (path : Str) (argv : List Str) (attr : ProcAttr) (res : Option Nat)
  /-- The statement `go func() { defer pipeWrite.Close(); p.Wait(); ... }()`. -/
  | go (p : Nat) (pipeWrite : File)
  /-- The call `p.Wait()` of the main control flow. -/
  | wait (p : Nat) (res : Option Int)
  /-- A diagnostic written to `os.Stderr`; `msg` is the text before `%s`. -/
  | stderr (msg : Str)
  /-- A deferred `fd.Close()` run when `processCmd` is left. -/
  | close (f : File)
  deriving DecidableEq, Repr

def msgResolving : Str := "Resolving binary: ".toList
def msgStdin : Str := "Redirecting stdin: ".toList
def msgStdout : Str := "Redirecting stdout: ".toList
def msgPipe : Str := "Creating pipe: ".toList
def msgForking : Str := "Forking process: ".toList
def msgReaping : Str := "Reaping process: ".toList

/-- How a call of `processCmd` ends. -/
inductive Outcome where
  /-- The function returned; `lastExitCode` is the global afterwards. -/
  | returned (lastExitCode : Int) (trace : List Event)
  /-- A run-time panic (index out of range): the interpreter crashes. -/
  | panicked (trace : List Event)
  /-- The model ran out of fuel (never the case, see `processCmd_fuel`). -/
  | outOfFuel
  deriving DecidableEq, Repr

/-! ## `processCmd` (`g_shell.go`, lines 19-94) -/

/-- The local variables of `processCmd`, the global `lastExitCode`, the pending
deferred closes (most recent first), the call counters and the trace. -/
structure State where
  attrs : ProcAttr
  path : Str
  processedTokens : List Str
  deferred : List File
  lastExitCode : Int
  nLookPath : Nat
  nOpen : Nat
  nPipe : Nat
  nStart : Nat
  trace : List Event
  deriving DecidableEq, Repr

/-- A `return`: the deferred closes run, last registered first. -/
def State.ret (st : State) : Outcome :=
  .returned st.lastExitCode (st.trace ++ st.deferred.map Event.close)

/-- An index out of range: the deferred closes run, then the program dies. -/
def State.panic (st : State) : Outcome :=
  .panicked (st.trace ++ st.deferred.map Event.close)

/-- The `"<"` case (lines 33-40) once `tokens[i+1]` has been read as `name`:
`inl` is the early return, `inr` the state with which the loop continues. -/
def redirectStdin (env : Env) (name : Str) (st : State) : Outcome ⊕ State :=
  if env.openFile st.nOpen then
    let fd := File.fd st.nOpen name [OpenFlag.O_RDONLY]
    .inr { st with
      nOpen := st.nOpen + 1
      trace := st.trace ++ [Event.openFile name [OpenFlag.O_RDONLY] (some fd)]
      deferred := fd :: st.deferred
      attrs := { st.attrs with Files0 := fd } }
  else
    .inl ({ st with
      nOpen := st.nOpen + 1
      trace := st.trace ++
        [Event.openFile name [OpenFlag.O_RDONLY] none, Event.stderr msgStdin] }).ret

/-- The flags `os.O_RDWR|os.O_CREATE` of line 42. -/
def stdoutFlags : List OpenFlag := [OpenFlag.O_RDWR, OpenFlag.O_CREATE]

/-- The `">"` case (lines 42-49) once `tokens[i+1]` has been read as `name`. -/
def redirectStdout (env : Env) (name : Str) (st : State) : Outcome ⊕ State :=
  if env.openFile st.nOpen then
    let fd := File.fd st.nOpen name stdoutFlags
    .inr { st with
      nOpen := st.nOpen + 1
      trace := st.trace ++ [Event.openFile name stdoutFlags (some fd)]
      deferred := fd :: st.deferred
      attrs := { st.attrs with Files1 := fd } }
  else
    .inl ({ st with
      nOpen := st.nOpen + 1
      trace := st.trace ++ [Event.openFile name stdoutFlags none, Event.stderr msgStdout] }).ret

/-- Lines 51-71 of the `"|"` case: create the pipe, start the current stage
with the pipe's write end as `Files[1]`, and launch its reaper goroutine.
`inl` is the early return after a failed `os.StartProcess`. -/
def spawnPiped (env : Env) (st : State) : Outcome ⊕ State :=
  let ok := env.pipe st.nPipe
  let pipeRead := if ok then File.pipeRead st.nPipe else File.nil
  let pipeWrite := if ok then File.pipeWrite st.nPipe else File.nil
  let tr1 := st.trace ++
    (if ok then [Event.pipe (some (pipeRead, pipeWrite))]
     else [Event.pipe none, Event.stderr msgPipe])
  let newAttrs : ProcAttr :=
    { Files0 := st.attrs.Files0, Files1 := pipeWrite, Files2 := st.attrs.Files2 }
  let attrs := { st.attrs with Files0 := pipeRead }
  if env.startProcess st.nStart then
    .inr { st with
      attrs := attrs
      nPipe := st.nPipe + 1
      nStart := st.nStart + 1
      trace := tr1 ++
        [Event.startProcess st.path st.processedTokens newAttrs (some st.nStart),
         Event.go st.nStart pipeWrite] }
  else
    .inl ({ st with
      attrs := attrs
      nPipe := st.nPipe + 1
      nStart := st.nStart + 1
      trace := tr1 ++
        [Event.startProcess st.path st.processedTokens newAttrs none,
         Event.stderr msgForking] }).ret

/-- Lines 73-79 of the `"|"` case once `tokens[i]` has been read as `tok`:
start the next stage's argument list and resolve its executable. -/
def nextStage (env : Env) (tok : Str) (st : State) : Outcome ⊕ State :=
  match env.lookPath st.nLookPath with
  | some path =>
    .inr { st with
      processedTokens := [tok]
      path := path
      nLookPath := st.nLookPath + 1
      trace := st.trace ++ [Event.lookPath tok (some path)] }
  | none =>
    .inl ({ st with
      processedTokens := [tok]
      nLookPath := st.nLookPath + 1
      trace := st.trace ++ [Event.lookPath tok none, Event.stderr msgResolving] }).ret

/-- Lines 84-93: start the terminal stage, wait for it and store its exit
code in `lastExitCode`. -/
def spawnLast (env : Env) (st : State) : Outcome :=
  if env.startProcess st.nStart then
    let p := st.nStart
    let pstate := env.wait p
    ({ st with
      nStart := st.nStart + 1
      lastExitCode := ExitCode pstate
      trace := st.trace ++
        [Event.startProcess st.path st.processedTokens st.attrs (some p),
         Event.wait p pstate] ++
        (if pstate.isNone then [Event.stderr msgReaping] else []) }).ret
  else
    ({ st with
      nStart := st.nStart + 1
      trace := st.trace ++
        [Event.startProcess st.path st.processedTokens st.attrs none,
         Event.stderr msgForking] }).ret

/-- The loop `for i := 1; i < len(tokens); i++ { switch tokens[i] ... }` of
lines 30-83 from index `i` on, followed by lines 84-93. Each iteration
consumes one unit of fuel. -/
def processCmdLoop (env : Env) (tokens : List Str) : Nat → Nat → State → Outcome
  | 0, i, st => if i < tokens.length then .outOfFuel else spawnLast env st
  | fuel + 1, i, st =>
    match tokens[i]? with
    | none => spawnLast env st
    | some tok =>
      if tok = ['<'] then
        match tokens[i + 1]? with
        | none => st.panic
        | some name =>
          match redirectStdin env name st with
          | .inl out => out
          | .inr st1 => processCmdLoop env tokens fuel (i + 1 + 1) st1
      else if tok = ['>'] then
        match tokens[i + 1]? with
        | none => st.panic
        | some name =>
          match redirectStdout env name st with
          | .inl out => out
          | .inr st1 => processCmdLoop env tokens fuel (i + 1 + 1) st1
      else if tok = ['|'] then
        match spawnPiped env st with
        | .inl out => out
        | .inr st1 =>
          match tokens[i + 1]? with
          | none => st1.panic
          | some tok1 =>
            match nextStage env tok1 st1 with
            | .inl out => out
            | .inr st2 => processCmdLoop env tokens fuel (i + 1 + 1) st2
      else
        processCmdLoop env tokens fuel (i + 1)
          { st with processedTokens := st.processedTokens ++ [tok] }

/-- The state after lines 20-29, when `exec.LookPath(tokens[0])` gave `path`. -/
def initState (lastExitCode : Int) (tok0 path : Str) : State :=
  { attrs := { Files0 := File.Stdin, Files1 := File.Stdout, Files2 := File.Stderr }
    path := path
    processedTokens := [tok0]
    deferred := []
    lastExitCode := lastExitCode
    nLookPath := 1
    nOpen := 0
    nPipe := 0
    nStart := 0
    trace := [Event.lookPath tok0 (some path)] }

/-- Source function `processCmd`, run with the global `lastExitCode`. -/
def processCmd (env : Env) (lastExitCode : Int) (tokens : List Str) : Outcome :=
  match tokens[0]? with
  | none => .panicked []
  | some tok0 =>
    match env.lookPath 0 with
    | none => .returned lastExitCode [Event.lookPath tok0 none, Event.stderr msgResolving]
    | some path => processCmdLoop env tokens tokens.length 1 (initState lastExitCode tok0 path)

/-- The goroutine of lines 65-71 for process `p`: wait for it, report a wait
error, and close the pipe's write end (the deferred call) at the end. -/
def reaper (env : Env) (p : Nat) (pipeWrite : File) : List Event :=
  match env.wait p with
  | some c => [Event.wait p (some c), Event.close pipeWrite]
  | none => [Event.wait p none, Event.stderr msgReaping, Event.close pipeWrite]

/-- The global `var lastExitCode int` before any command has run (Go zero
value). -/
def initialLastExitCode : Int := 0

/-- One iteration of the read loop of `main` (lines 130-134) on the line `cmd`:
`none` when `processCmd` was not called. -/
def mainStep (env : Env) (lastExitCode : Int) (cmd : Str) : Option Outcome :=
  let tokens := tokenize lastExitCode cmd
  if tokens.length > 0 then some (processCmd env lastExitCode tokens) else none


/-! ## The tokenizer as the specification words it -/

/-- Specification, 4.1 "Splitting": the line is split on runs of whitespace into
words. -/
def splitWords (L : Str) : List Str :=
  (L.splitOnP isSpace).filter (fun w => !w.isEmpty)

/-- Specification, 4.1 "Variable substitution": a token exactly equal to `"$?"`
is replaced by the decimal representation of the last exit code; every other
token is unchanged. -/
def substituteExitCode (E : Int) (tok : Str) : Str :=
  if tok = exitCodeVar then Itoa E else tok

/-- Specification, 4.1: split into words, apply the metacharacter extraction to
each word in order and concatenate, then substitute the exit-code variable. -/
def tokenizeSpec (E : Int) (L : Str) : List Str :=
  ((splitWords L).flatMap tokenizeMetaChars).map (substituteExitCode E)

/-! ## The loop of `processCmd` on the unread tokens, and on parsed stages -/

/-- The loop of `processCmd` as a recursion on the unread tokens `tokens[i:]`
(equal to `processCmdLoop`, see `processCmdLoop_eq_processRest`). -/
def processRest (env : Env) : List Str → State → Outcome
  | [], st => spawnLast env st
  | [tok], st =>
    if tok = ['<'] then st.panic
    else if tok = ['>'] then st.panic
    else if tok = ['|'] then
      match spawnPiped env st with
      | .inl out => out
      | .inr st1 => st1.panic
    else spawnLast env { st with processedTokens := st.processedTokens ++ [tok] }
  | tok :: tok1 :: rest, st =>
    if tok = ['<'] then
      match redirectStdin env tok1 st with
      | .inl out => out
      | .inr st1 => processRest env rest st1
    else if tok = ['>'] then
      match redirectStdout env tok1 st with
      | .inl out => out
      | .inr st1 => processRest env rest st1
    else if tok = ['|'] then
      match spawnPiped env st with
      | .inl out => out
      | .inr st1 =>
        match nextStage env tok1 st1 with
        | .inl out => out
        | .inr st2 => processRest env rest st2
    else processRest env (tok1 :: rest) { st with processedTokens := st.processedTokens ++ [tok] }

/-- What follows the command name inside one stage: a plain argument, or a
redirection operator with the token after it. -/
inductive Item where
  | arg (tok : Str)
  | stdin (name : Str)
  | stdout (name : Str)
  deriving DecidableEq, Repr

/-- The tokens an item is written with. -/
def Item.tokens : Item → List Str
  | .arg tok => [tok]
  | .stdin name => [['<'], name]
  | .stdout name => [['>'], name]

/-- An argument item is a plain token: none of `"<"`, `">"`, `"|"`. The token
after a redirection operator is unrestricted. -/
def Item.WF : Item → Prop
  | .arg tok => tok ∉ metaChars
  | _ => True

instance (it : Item) : Decidable it.WF := by
  cases it <;> unfold Item.WF <;> infer_instance

def itemsTokens (items : List Item) : List Str := items.flatMap Item.tokens

/-- The plain arguments among the items, in order. -/
def itemsArgs : List Item → List Str
  | [] => []
  | .arg tok :: items => tok :: itemsArgs items
  | _ :: items => itemsArgs items

/-- One pipeline stage: the command-name token and the items after it. -/
structure Stage where
  cmd : Str
  items : List Item
  deriving DecidableEq, Repr

def Stage.WF (s : Stage) : Prop := ∀ it ∈ s.items, it.WF

instance (s : Stage) : Decidable s.WF := by
  unfold Stage.WF; infer_instance

/-- The argument vector of a stage: its command name, then its plain tokens. -/
def Stage.argv (s : Stage) : List Str := s.cmd :: itemsArgs s.items

/-- The tokens of the stages after the first: each is introduced by `"|"`. -/
def laterTokens (later : List Stage) : List Str :=
  later.flatMap (fun s => ['|'] :: s.cmd :: itemsTokens s.items)

/-- The token sequence `stage_1 | stage_2 | ... | stage_n`. -/
def pipelineTokens (first : Stage) (later : List Stage) : List Str :=
  first.cmd :: (itemsTokens first.items ++ laterTokens later)

/-- The loop body on one item. -/
def applyItem (env : Env) (it : Item) (st : State) : Outcome ⊕ State :=
  match it with
  | .arg tok => .inr { st with processedTokens := st.processedTokens ++ [tok] }
  | .stdin name => redirectStdin env name st
  | .stdout name => redirectStdout env name st

/-- The loop body on the items of a stage, stopping at the first early return. -/
def applyItems (env : Env) : List Item → State → Outcome ⊕ State
  | [], st => .inr st
  | it :: items, st =>
    match applyItem env it st with
    | .inl out => .inl out
    | .inr st1 => applyItems env items st1

/-- The loop on a parsed pipeline: the items left in the current stage, then
the later stages. -/
def runStages (env : Env) : List Item → List Stage → State → Outcome
  | items, [], st =>
    match applyItems env items st with
    | .inl out => out
    | .inr st1 => spawnLast env st1
  | items, s :: later, st =>
    match applyItems env items st with
    | .inl out => out
    | .inr st1 =>
      match spawnPiped env st1 with
      | .inl out => out
      | .inr st2 =>
        match nextStage env s.cmd st2 with
        | .inl out => out
        | .inr st3 => runStages env s.items later st3

/-! ## Reading a trace -/

/-- The processes started: process, argument vector and stream bindings of
every successful `os.StartProcess`, in order. -/
def spawns : List Event → List (Nat × List Str × ProcAttr)
  | [] => []
  | Event.startProcess _ argv attr (some p) :: tr => (p, argv, attr) :: spawns tr
  | _ :: tr => spawns tr

/-- The reaper goroutines launched: process and pipe write end, in order. -/
def reapers : List Event → List (Nat × File)
  | [] => []
  | Event.go p w :: tr => (p, w) :: reapers tr
  | _ :: tr => reapers tr

/-- The processes waited for by the main control flow, in order. -/
def waits : List Event → List Nat
  | [] => []
  | Event.wait p _ :: tr => p :: waits tr
  | _ :: tr => waits tr

/-- The files opened: name, flags and resulting handle of every successful
open call, in order. -/
def opens : List Event → List (Str × List OpenFlag × File)
  | [] => []
  | Event.openFile name flags (some f) :: tr => (name, flags, f) :: opens tr
  | _ :: tr => opens tr

/-- The diagnostics written to standard error, in order. -/
def diagnostics : List Event → List Str
  | [] => []
  | Event.stderr msg :: tr => msg :: diagnostics tr
  | _ :: tr => diagnostics tr

/-- The trace of an outcome. -/
def Outcome.trace : Outcome → List Event
  | .returned _ tr => tr
  | .panicked tr => tr
  | .outOfFuel => []

/-! ## Describing the stages of a pipeline -/

/-- Number of redirections among the items. -/
def redirs : List Item → Nat
  | [] => 0
  | .arg _ :: items => redirs items
  | _ :: items => redirs items + 1

/-- The redirections of the items in token order, when `k` open calls precede
them: name, flags and the handle the open call returns. -/
def itemsOpens (k : Nat) : List Item → List (Str × List OpenFlag × File)
  | [] => []
  | .arg _ :: items => itemsOpens k items
  | .stdin name :: items =>
    (name, [OpenFlag.O_RDONLY], File.fd k name [OpenFlag.O_RDONLY]) :: itemsOpens (k + 1) items
  | .stdout name :: items =>
    (name, stdoutFlags, File.fd k name stdoutFlags) :: itemsOpens (k + 1) items

/-- The handle opened for the last `"<"` among the items, `cur` if there is
none, when `k` open calls precede them. -/
def lastStdin (k : Nat) (cur : File) : List Item → File
  | [] => cur
  | .arg _ :: items => lastStdin k cur items
  | .stdin name :: items => lastStdin (k + 1) (File.fd k name [OpenFlag.O_RDONLY]) items
  | .stdout _ :: items => lastStdin (k + 1) cur items

/-- The handle opened for the last `">"` among the items, `cur` if there is
none, when `k` open calls precede them. -/
def lastStdout (k : Nat) (cur : File) : List Item → File
  | [] => cur
  | .arg _ :: items => lastStdout k cur items
  | .stdin _ :: items => lastStdout (k + 1) cur items
  | .stdout name :: items => lastStdout (k + 1) (File.fd k name stdoutFlags) items

/-- The trace event of a successful open call. -/
def openEvent (o : Str × List OpenFlag × File) : Event :=
  Event.openFile o.1 o.2.1 (some o.2.2)

/-- The state after the items of a stage when every open call succeeds. -/
def itemsState (items : List Item) (st : State) : State :=
  { st with
    processedTokens := st.processedTokens ++ itemsArgs items
    attrs :=
      { Files0 := lastStdin st.nOpen st.attrs.Files0 items
        Files1 := lastStdout st.nOpen st.attrs.Files1 items
        Files2 := st.attrs.Files2 }
    deferred := ((itemsOpens st.nOpen items).map (fun o => o.2.2)).reverse ++ st.deferred
    nOpen := st.nOpen + redirs items
    trace := st.trace ++ (itemsOpens st.nOpen items).map openEvent }

/-- A concrete script: the `k`-th resolution gives `look[k]` (an error beyond
the list), every open call succeeds except those whose index is in `openFail`,
pipes and processes can always be created, and process `p` exits with status
`exits p`. -/
def envScript (look : List (Option Str)) (openFail : List Nat) (exits : Nat → Int) : Env :=
  { lookPath := fun k => (look.getD k none)
    openFile := fun k => !(openFail.contains k)
    pipe := fun _ => true
    startProcess := fun _ => true
    wait := fun p => some (exits p) }

/-- The state after lines 51-72 when `os.Pipe` and `os.StartProcess` succeed. -/
def pipedState (st : State) : State :=
  { st with
    attrs := { st.attrs with Files0 := File.pipeRead st.nPipe }
    nPipe := st.nPipe + 1
    nStart := st.nStart + 1
    trace := st.trace ++
      [Event.pipe (some (File.pipeRead st.nPipe, File.pipeWrite st.nPipe)),
       Event.startProcess st.path st.processedTokens
         { Files0 := st.attrs.Files0, Files1 := File.pipeWrite st.nPipe,
           Files2 := st.attrs.Files2 } (some st.nStart),
       Event.go st.nStart (File.pipeWrite st.nPipe)] }

/-- The state after lines 73-79 when `exec.LookPath` gives `path`. -/
def resolvedState (tok path : Str) (st : State) : State :=
  { st with
    processedTokens := [tok]
    path := path
    nLookPath := st.nLookPath + 1
    trace := st.trace ++ [Event.lookPath tok (some path)] }

/-- All items of a list of stages, in order. -/
def stagesItems (stages : List Stage) : List Item := stages.flatMap (fun s => s.items)

/-- The processes started by a run in which every call succeeds: the current
stage has argument list `pt` so far, bindings `attrs` and items `items` left,
`js` processes, `jp` pipes and `k` opened files precede, and `later` are the
stages after it. -/
def stageSpawns (js jp k : Nat) (attrs : ProcAttr) (pt : List Str) (items : List Item) :
    List Stage → List (Nat × List Str × ProcAttr)
  | [] =>
    [(js, pt ++ itemsArgs items,
      { Files0 := lastStdin k attrs.Files0 items
        Files1 := lastStdout k attrs.Files1 items
        Files2 := attrs.Files2 })]
  | s :: later =>
    (js, pt ++ itemsArgs items,
      { Files0 := lastStdin k attrs.Files0 items
        Files1 := File.pipeWrite jp
        Files2 := attrs.Files2 }) ::
    stageSpawns (js + 1) (jp + 1) (k + redirs items)
      { Files0 := File.pipeRead jp
        Files1 := lastStdout k attrs.Files1 items
        Files2 := attrs.Files2 } [s.cmd] s.items later

/-- The stage written with the plain tokens `seg`. -/
def plainStage : List Str → Stage
  | [] => { cmd := [], items := [] }
  | cmd :: args => { cmd := cmd, items := args.map Item.arg }

/-- Stream bindings of stage `i` (counted from 0) of a pipeline of `n` stages
without redirections: stdin is the interpreter's for the first stage and the
read end of pipe `i - 1` otherwise, stdout is the interpreter's for the last
stage and the write end of pipe `i` otherwise. -/
def pipeAttr (n i : Nat) : ProcAttr :=
  { Files0 := if i = 0 then File.Stdin else File.pipeRead (i - 1)
    Files1 := if i + 1 = n then File.Stdout else File.pipeWrite i
    Files2 := File.Stderr }

/-- The token sequence of a non-empty list of stages. -/
def stagesTokens : List Stage → List Str
  | [] => []
  | first :: later => pipelineTokens first later

/-! ## The last exit code -/

/-- What `processCmd` may leave in `lastExitCode`, given its value `v` before:
either the main control flow waited for nothing and the value is `v`, or it
waited for exactly one process, the last one started, and the value is that
process's exit code. -/
def ExitCodeRule (env : Env) (v : Int) (out : Outcome) : Prop :=
  ∀ e tr, out = .returned e tr →
    (waits tr = [] ∧ e = v) ∨
    (∃ p argv attr, waits tr = [p] ∧ (spawns tr).getLast? = some (p, argv, attr) ∧
      e = ExitCode (env.wait p))


/-! ## The read loop and the interpreter's state -/

/-- One iteration of the read loop of `main` as an outcome: when `processCmd`
is not called nothing happens and `lastExitCode` keeps its value. -/
def mainIteration (env : Env) (lastExitCode : Int) (cmd : Str) : Outcome :=
  match mainStep env lastExitCode cmd with
  | some out => out
  | none => .returned lastExitCode []

/-- The state of the interpreter between two statements of `main`: the global
`lastExitCode` and the effects on the outside world so far. -/
structure World where
  lastExitCode : Int
  trace : List Event
  deriving DecidableEq, Repr

/-- First loop of `tokenize`, threading the interpreter's state. -/
def tokenizeSplitW (w : World) : List Str → List Str → List Str × World
  | [], tokens => (tokens, w)
  | tok :: fields, tokens => tokenizeSplitW w fields (tokens ++ tokenizeMetaChars tok)

/-- Second loop of `tokenize`, threading the interpreter's state: iteration `i`
reads the global `lastExitCode` when `tokens[i]` is `"$?"`. The first argument
counts the iterations left. -/
def expandVarsW : Nat → Nat → List Str → World → List Str × World
  | 0, _, tokens, w => (tokens, w)
  | n + 1, i, tokens, w =>
    if tokens[i]? = some exitCodeVar then
      expandVarsW n (i + 1) (tokens.set i (Itoa w.lastExitCode)) w
    else expandVarsW n (i + 1) tokens w

/-- Source function `tokenize` as a state transformer of the interpreter: the
tokens and the state after the call. -/
def tokenizeW (w : World) (cmdline : Str) : List Str × World :=
  let r := tokenizeSplitW w (Fields cmdline) []
  expandVarsW r.1.length 0 r.1 r.2

/-! ## Further descriptions of a run -/

/-- The value `spawnPiped` continues with when `os.StartProcess` succeeds,
whether or not `os.Pipe` did. -/
def spawnedState (env : Env) (st : State) : State :=
  { st with
    attrs :=
      { st.attrs with
        Files0 := if env.pipe st.nPipe then File.pipeRead st.nPipe else File.nil }
    nPipe := st.nPipe + 1
    nStart := st.nStart + 1
    trace := st.trace ++
      (if env.pipe st.nPipe then
        [Event.pipe (some (File.pipeRead st.nPipe, File.pipeWrite st.nPipe))]
       else [Event.pipe none, Event.stderr msgPipe]) ++
      [Event.startProcess st.path st.processedTokens
         { Files0 := st.attrs.Files0
           Files1 := if env.pipe st.nPipe then File.pipeWrite st.nPipe else File.nil
           Files2 := st.attrs.Files2 } (some st.nStart),
       Event.go st.nStart
         (if env.pipe st.nPipe then File.pipeWrite st.nPipe else File.nil)] }

/-- The loop from the token after a `"|"` on: resolve the stage `s`, then run
its items and the later stages. -/
def enterStage (env : Env) (s : Stage) (later : List Stage) (st : State) : Outcome :=
  match nextStage env s.cmd st with
  | .inl out => out
  | .inr st1 => runStages env s.items later st1

/-- Whether an item is a redirection. -/
def Item.isRedir : Item → Bool
  | .arg _ => false
  | _ => true

/-- The files closed by the deferred calls of `processCmd`, in order. -/
def closes : List Event → List File
  | [] => []
  | Event.close f :: tr => f :: closes tr
  | _ :: tr => closes tr

/-- Every `Close` issued on behalf of a run with trace `tr`: the deferred
closes of `processCmd` itself, then those of the reaper goroutines it
launched. -/
def closesIssued (env : Env) (tr : List Event) : List File :=
  closes tr ++ (reapers tr).flatMap (fun r => closes (reaper env r.1 r.2))

/-- A concrete script like `envScript` in which the `os.StartProcess` calls
whose index is in `startFail` fail. -/
def envStartFail (look : List (Option Str)) (startFail : List Nat) (exits : Nat → Int) : Env :=
  { lookPath := fun k => (look.getD k none)
    openFile := fun _ => true
    pipe := fun _ => true
    startProcess := fun k => !(startFail.contains k)
    wait := fun p => some (exits p) }

/-! ## Reapers and the terminal stage -/

/-- The runs of the reaper goroutines launched by a run with trace `tr`: for
each `go` statement, the effects of its goroutine (lines 65-71). -/
def reaperRuns (env : Env) (tr : List Event) : List (List Event) :=
  (reapers tr).map (fun r => reaper env r.1 r.2)

/-- The processes started in a run and not handed to a reaper goroutine: the
terminal stage of the pipeline (started at line 84), when it has been
started. -/
def unreaped (tr : List Event) : List Nat :=
  ((spawns tr).map (fun s => s.1)).filter
    (fun p => !((reapers tr).map (fun r => r.1)).contains p)

/-- Loop invariant: the main control flow has waited for nothing, every process
started so far has been handed to a reaper, and the processes started are
numbered below `nStart`. -/
def ReapInv (st : State) : Prop :=
  waits st.trace = [] ∧
  (spawns st.trace).map (fun s => s.1) = (reapers st.trace).map (fun r => r.1) ∧
  ∀ p ∈ (spawns st.trace).map (fun s => s.1), p < st.nStart

/-- On return, either every started process has a reaper and the main control
flow waited for nothing, or exactly one started process has no reaper and the
main control flow waited for exactly that one. -/
def ReapRule (out : Outcome) : Prop :=
  ∀ e tr, out = .returned e tr →
    (unreaped tr = [] ∧ waits tr = []) ∨ (∃ p, unreaped tr = [p] ∧ waits tr = [p])

/-- A concrete script like `envScript` in which the `os.Pipe` calls whose index
is in `pipeFail` fail. -/
def envPipeFail (look : List (Option Str)) (pipeFail : List Nat) (exits : Nat → Int) : Env :=
  { lookPath := fun k => (look.getD k none)
    openFile := fun _ => true
    pipe := fun k => !(pipeFail.contains k)
    startProcess := fun _ => true
    wait := fun p => some (exits p) }

/-! ## Tokenizer: lemmas -/

theorem tokenizeMetaChars_nil : tokenizeMetaChars [] = [[]] := by
  decide

theorem tokenizeMetaChars_cons (c : Char) (rest : Str) :
    tokenizeMetaChars (c :: rest) =
      if c = '<' ∨ c = '>' ∨ c = '|' then (if rest = [] then [[c]] else [[c], rest])
      else [c :: rest] := by
  by_cases h1 : c = '<'
  · subst h1
    cases rest <;> simp [tokenizeMetaChars, tokenizeMetaCharsLoop, metaChars, CutPrefix]
  · by_cases h2 : c = '>'
    · subst h2
      cases rest <;> simp [tokenizeMetaChars, tokenizeMetaCharsLoop, metaChars, CutPrefix]
    · by_cases h3 : c = '|'
      · subst h3
        cases rest <;> simp [tokenizeMetaChars, tokenizeMetaCharsLoop, metaChars, CutPrefix]
      · simp [tokenizeMetaChars, tokenizeMetaCharsLoop, metaChars, CutPrefix, h1, h2, h3,
          Ne.symm h1, Ne.symm h2, Ne.symm h3]

theorem foldl_append_eq_flatMap {α β : Type} (f : α → List β) (l : List α) (init : List β) :
    l.foldl (fun acc x => acc ++ f x) init = init ++ l.flatMap f := by
  induction l generalizing init with
  | nil => simp
  | cons x xs ih => simp [ih]

theorem tokenizeSplit_eq (cmdline : Str) :
    tokenizeSplit cmdline = (Fields cmdline).flatMap tokenizeMetaChars := by
  simp [tokenizeSplit, foldl_append_eq_flatMap]


theorem expandVars_take (e : Int) (tokens : List Str) (n : Nat) (hn : n ≤ tokens.length) :
    (List.range n).foldl
      (fun toks i => if toks[i]? = some exitCodeVar then toks.set i (Itoa e) else toks) tokens
      = (tokens.take n).map (substituteExitCode e) ++ tokens.drop n := by
  induction n with
  | zero => simp
  | succ n ih =>
    have hlt : n < tokens.length := hn
    rw [List.range_succ, List.foldl_append, ih (Nat.le_of_lt hlt)]
    have hdrop : tokens.drop n = tokens[n] :: tokens.drop (n + 1) := by
      simp
    have hlen : (List.map (substituteExitCode e) (List.take n tokens)).length = n := by
      simp [Nat.min_eq_left (Nat.le_of_lt hlt)]
    rw [List.take_succ, hdrop]
    simp only [List.foldl_cons, List.foldl_nil]
    rw [List.getElem?_append_right (by omega)]
    simp only [hlen, Nat.sub_self, List.getElem?_cons_zero, Option.some.injEq]
    rw [List.getElem?_eq_getElem hlt]
    simp only [Option.toList_some, List.map_append, List.map_cons, List.map_nil,
      List.append_assoc, List.singleton_append]
    by_cases h : tokens[n] = exitCodeVar
    · rw [if_pos h]
      rw [List.set_append_right _ _ (by omega)]
      simp [Nat.min_eq_left (Nat.le_of_lt hlt), substituteExitCode, h]
    · rw [if_neg h]
      simp [substituteExitCode, h]

theorem expandVars_eq_map (e : Int) (tokens : List Str) :
    expandVars e tokens = tokens.map (substituteExitCode e) := by
  unfold expandVars
  rw [expandVars_take e tokens tokens.length (Nat.le_refl _)]
  simp

theorem digitChar_ne_dollar : ∀ d : Nat, d < 10 → Nat.digitChar d ≠ '$' := by
  decide

theorem toDigitsCore_no_dollar (fuel n : Nat) (acc : List Char) (h : '$' ∉ acc) :
    '$' ∉ Nat.toDigitsCore 10 fuel n acc := by
  induction fuel generalizing n acc with
  | zero => simpa [Nat.toDigitsCore] using h
  | succ fuel ih =>
    unfold Nat.toDigitsCore
    have h2 : '$' ∉ Nat.digitChar (n % 10) :: acc := by
      simp only [List.mem_cons, not_or]
      exact ⟨fun hh => digitChar_ne_dollar _ (Nat.mod_lt _ (by decide)) hh.symm, h⟩
    dsimp only
    split_ifs
    · exact h2
    · exact ih _ _ h2

theorem Itoa_no_dollar (e : Int) : '$' ∉ Itoa e := by
  cases e with
  | ofNat n => exact toDigitsCore_no_dollar _ _ _ (by simp)
  | negSucc n =>
    simp only [Itoa, List.mem_cons, not_or]
    exact ⟨by decide, toDigitsCore_no_dollar _ _ _ (by simp)⟩

theorem Itoa_ne_exitCodeVar (e : Int) : Itoa e ≠ exitCodeVar := by
  intro h
  have := Itoa_no_dollar e
  rw [h] at this
  exact this (by simp [exitCodeVar])

theorem fieldsAux_eq (s cur : Str) :
    fieldsAux s cur =
      ((s.splitOnP isSpace).modifyHead (fun w => cur ++ w)).filter (fun w => !w.isEmpty) := by
  induction s generalizing cur with
  | nil =>
    cases cur <;> simp [fieldsAux, List.splitOnP_nil]
  | cons c cs ih =>
    rw [List.splitOnP_cons]
    by_cases hc : isSpace c = true
    · have h0 : List.modifyHead (fun w => ([] : Str) ++ w) (List.splitOnP isSpace cs)
          = List.splitOnP isSpace cs := by
        cases List.splitOnP isSpace cs <;> simp
      have h1 : List.modifyHead (fun w : Str => w) (List.splitOnP isSpace cs)
          = List.splitOnP isSpace cs := by
        cases List.splitOnP isSpace cs <;> simp
      cases cur with
      | nil => simp [fieldsAux, hc, ih, h0, h1]
      | cons d ds => simp [fieldsAux, hc, ih, h0, h1]
    · have hm : List.modifyHead (fun w => cur ++ w)
          (List.modifyHead (List.cons c) (List.splitOnP isSpace cs))
          = List.modifyHead (fun w => (cur ++ [c]) ++ w) (List.splitOnP isSpace cs) := by
        cases List.splitOnP isSpace cs <;> simp
      simp only [fieldsAux, hc, if_false, ih, hm, Bool.false_eq_true]

theorem Fields_eq_splitWords (L : Str) : Fields L = splitWords L := by
  unfold Fields splitWords
  rw [fieldsAux_eq]
  cases List.splitOnP isSpace L <;> simp

theorem tokenize_eq_spec (E : Int) (L : Str) : tokenize E L = tokenizeSpec E L := by
  unfold tokenize tokenizeSpec
  rw [expandVars_eq_map, tokenizeSplit_eq, Fields_eq_splitWords]

theorem exitCodeVar_not_mem_tokenize (E : Int) (L : Str) : exitCodeVar ∉ tokenize E L := by
  rw [tokenize_eq_spec]
  unfold tokenizeSpec
  intro h
  obtain ⟨t, _, ht⟩ := List.mem_map.1 h
  unfold substituteExitCode at ht
  split_ifs at ht with h1
  · exact Itoa_ne_exitCodeVar E ht
  · exact h1 ht

theorem fieldsAux_no_space (s cur : Str) (h : ∀ c ∈ s, isSpace c = false) :
    fieldsAux s cur = if cur ++ s = [] then [] else [cur ++ s] := by
  induction s generalizing cur with
  | nil => simp [fieldsAux]
  | cons c cs ih =>
    have hc : isSpace c = false := h c (by simp)
    have hcs : ∀ d ∈ cs, isSpace d = false := fun d hd => h d (by simp [hd])
    simp [fieldsAux, hc, ih _ hcs]

theorem Fields_word (w : Str) (hne : w ≠ []) (h : ∀ c ∈ w, isSpace c = false) :
    Fields w = [w] := by
  unfold Fields
  rw [fieldsAux_no_space w [] h]
  simp [hne]

/-- Claim C1: `tokenizeMetaChars w` is `[op]` when `w` is exactly an operator,
`[op, rest]` when `w = op ++ rest` with `rest` non-empty (the rest is one token,
whatever it contains), and `[w]` when `w` does not begin with an operator. -/
theorem tokenizeMetaChars_spec (w : Str) :
    (w ∈ metaChars → tokenizeMetaChars w = [w]) ∧
    (∀ op rest, op ∈ metaChars → rest ≠ [] → w = op ++ rest →
      tokenizeMetaChars w = [op, rest]) ∧
    ((∀ op ∈ metaChars, ¬ op <+: w) → tokenizeMetaChars w = [w]) := by
  refine ⟨?_, ?_, ?_⟩
  · intro hw
    simp only [metaChars, List.mem_cons, List.mem_singleton, List.not_mem_nil, or_false] at hw
    rcases hw with rfl | rfl | rfl <;> decide
  · intro op rest hop hrest hw
    simp only [metaChars, List.mem_cons, List.mem_singleton, List.not_mem_nil, or_false] at hop
    rcases hop with rfl | rfl | rfl <;> subst hw <;>
      simp [tokenizeMetaChars_cons, hrest]
  · intro h
    cases w with
    | nil => exact tokenizeMetaChars_nil
    | cons c rest =>
      rw [tokenizeMetaChars_cons]
      have h1 : c ≠ '<' := fun e => h ['<'] (by simp [metaChars]) (by simp [e])
      have h2 : c ≠ '>' := fun e => h ['>'] (by simp [metaChars]) (by simp [e])
      have h3 : c ≠ '|' := fun e => h ['|'] (by simp [metaChars]) (by simp [e])
      simp [h1, h2, h3]

/-- Witness of C1: `"<in.txt"` gives `["<", "in.txt"]`, `"<<in"` gives
`["<", "<in"]`, `"|"` gives `["|"]` and `"cmd"` gives `["cmd"]`. -/
theorem tokenizeMetaChars_spec_witness :
    tokenizeMetaChars "<in.txt".toList = ["<".toList, "in.txt".toList] ∧
    tokenizeMetaChars "<<in".toList = ["<".toList, "<in".toList] ∧
    tokenizeMetaChars "|".toList = ["|".toList] ∧
    tokenizeMetaChars "cmd".toList = ["cmd".toList] :=
  ⟨(tokenizeMetaChars_spec "<in.txt".toList).2.1 "<".toList "in.txt".toList
      (by decide) (by decide) (by decide),
   (tokenizeMetaChars_spec "<<in".toList).2.1 "<".toList "<in".toList
      (by decide) (by decide) (by decide),
   (tokenizeMetaChars_spec "|".toList).1 (by decide),
   (tokenizeMetaChars_spec "cmd".toList).2.2 (by decide)⟩

/-- Counterexample to C2: `tokenize("a|b")` is not `["a", "|", "b"]`; the
word is returned whole. -/
theorem tokenize_infix_counterexample :
    tokenize 0 ("a".toList ++ "|".toList ++ "b".toList) ≠ ["a".toList, "|".toList, "b".toList] ∧
    tokenize 0 "a|b".toList = ["a|b".toList] := by
  decide

/-- Claim C2, amended: for an operator `op` and whitespace-free strings `u`, `v`
where `u` is non-empty and holds no metacharacter, `tokenize (u ++ op ++ v)` is
the single token `u ++ op ++ v`: an operator inside a word is not split off. -/
theorem tokenize_infix (E : Int) (op u v : Str) (hop : op ∈ metaChars) (hu : u ≠ [])
    (hus : ∀ c ∈ u, isSpace c = false) (hvs : ∀ c ∈ v, isSpace c = false)
    (hum : ∀ c ∈ u, c ≠ '<' ∧ c ≠ '>' ∧ c ≠ '|') :
    tokenize E (u ++ op ++ v) = [u ++ op ++ v] := by
  have hops : ∀ c ∈ op, isSpace c = false := by
    simp only [metaChars, List.mem_cons, List.mem_singleton, List.not_mem_nil, or_false] at hop
    rcases hop with rfl | rfl | rfl <;> decide
  have hopd : '$' ∉ op ∧ '?' ∉ op ∧ op ≠ [] := by
    simp only [metaChars, List.mem_cons, List.mem_singleton, List.not_mem_nil, or_false] at hop
    rcases hop with rfl | rfl | rfl <;> decide
  have hw : ∀ c ∈ u ++ op ++ v, isSpace c = false := by
    intro c hc
    simp only [List.mem_append] at hc
    rcases hc with (hc | hc) | hc
    · exact hus c hc
    · exact hops c hc
    · exact hvs c hc
  have hne : u ++ op ++ v ≠ [] := by simp [hu]
  rw [tokenize_eq_spec]
  unfold tokenizeSpec
  rw [← Fields_eq_splitWords, Fields_word _ hne hw]
  obtain ⟨c, us, rfl⟩ := List.exists_cons_of_ne_nil hu
  obtain ⟨h1, h2, h3⟩ := hum c (by simp)
  have hvar : c :: us ++ op ++ v ≠ exitCodeVar := by
    intro h
    have hmem : ∀ x ∈ op, x ∈ exitCodeVar := by
      intro x hx
      rw [← h]
      simp [hx]
    obtain ⟨x, xs, hx⟩ := List.exists_cons_of_ne_nil hopd.2.2
    have := hmem x (by simp [hx])
    simp only [exitCodeVar, List.mem_cons, List.mem_singleton, List.not_mem_nil, or_false] at this
    rcases this with rfl | rfl
    · exact hopd.1 (by simp [hx])
    · exact hopd.2.1 (by simp [hx])
  simp only [List.cons_append, List.flatMap_cons, List.flatMap_nil, List.append_nil,
    tokenizeMetaChars_cons, h1, h2, h3, or_self, if_false, List.map_cons, List.map_nil]
  simp only [List.cons_append, List.append_assoc] at hvar
  simp [substituteExitCode, hvar]

/-- Witness of the amended C2 at `u = "a"`, `op = "|"`, `v = "b"`. -/
theorem tokenize_infix_witness :
    tokenize 7 ("a".toList ++ "|".toList ++ "b".toList)
      = ["a".toList ++ "|".toList ++ "b".toList] :=
  tokenize_infix 7 "|".toList "a".toList "b".toList (by decide) (by decide) (by decide)
    (by decide) (by decide)

/-- Claim C3: for every line `L` and last exit code `E`, `tokenize` returns the
whitespace-split words, each passed through `tokenizeMetaChars`, concatenated,
with every token equal to `"$?"` replaced by the decimal form of `E` and every
other token unchanged; no returned token is `"$?"`; and with `E = 7` the line
`"echo $?"` gives `["echo", "7"]` while `"a$?"` is left alone. -/
theorem tokenize_refines_spec :
    (∀ (E : Int) (L : Str), tokenize E L = tokenizeSpec E L ∧ exitCodeVar ∉ tokenize E L) ∧
    tokenize 7 "echo $?".toList = ["echo".toList, "7".toList] ∧
    tokenize 7 "echo a$?".toList = ["echo".toList, "a$?".toList] :=
  ⟨fun E L => ⟨tokenize_eq_spec E L, exitCodeVar_not_mem_tokenize E L⟩, by decide, by decide⟩


/-! ## `processCmd`: from the indexed loop to the unread tokens -/

theorem drop_eq_cons_iff {tokens : List Str} {i : Nat} {a : Str} {r : List Str}
    (h : tokens.drop i = a :: r) : tokens[i]? = some a ∧ tokens.drop (i + 1) = r := by
  constructor
  · have h0 : (tokens.drop i)[0]? = some a := by rw [h]; simp
    rw [List.getElem?_drop] at h0
    simpa using h0
  · have h1 : (tokens.drop i).drop 1 = r := by rw [h]; rfl
    rw [List.drop_drop] at h1
    rw [← h1]

theorem drop_eq_nil_getElem? {tokens : List Str} {i : Nat} (h : tokens.drop i = []) :
    tokens[i]? = none := by
  rw [List.drop_eq_nil_iff] at h
  exact List.getElem?_eq_none h

theorem processCmdLoop_eq_processRest (env : Env) (tokens : List Str) (fuel i : Nat) (st : State)
    (hfuel : tokens.length ≤ i + fuel) :
    processCmdLoop env tokens fuel i st = processRest env (tokens.drop i) st := by
  induction fuel generalizing i st with
  | zero =>
    have hlen : tokens.length ≤ i := by omega
    have hd : tokens.drop i = [] := List.drop_eq_nil_iff.2 hlen
    rw [hd]
    simp [processCmdLoop, processRest, Nat.not_lt.2 hlen]
  | succ fuel ih =>
    cases hd : tokens.drop i with
    | nil =>
      simp [processCmdLoop, processRest, drop_eq_nil_getElem? hd]
    | cons tok rest =>
      obtain ⟨h0, hd1⟩ := drop_eq_cons_iff hd
      have hlt : i < tokens.length := by
        by_contra hge
        rw [List.drop_eq_nil_iff.2 (Nat.not_lt.1 hge)] at hd
        exact List.noConfusion hd
      cases rest with
      | nil =>
        have h1 : tokens[i + 1]? = none := drop_eq_nil_getElem? hd1
        unfold processCmdLoop
        simp only [h0, h1, processRest]
        split_ifs with a b c
        · rfl
        · rfl
        · rfl
        · rw [ih (i + 1) _ (by omega), hd1]
          rfl
      | cons tok1 rest1 =>
        obtain ⟨h1, hd2⟩ := drop_eq_cons_iff hd1
        unfold processCmdLoop
        simp only [h0, h1, processRest]
        split_ifs with a b c
        · cases redirectStdin env tok1 st with
          | inl out => rfl
          | inr st1 => simp only []; rw [ih (i + 1 + 1) _ (by omega), hd2]
        · cases redirectStdout env tok1 st with
          | inl out => rfl
          | inr st1 => simp only []; rw [ih (i + 1 + 1) _ (by omega), hd2]
        · cases spawnPiped env st with
          | inl out => rfl
          | inr st1 =>
            simp only []
            cases nextStage env tok1 st1 with
            | inl out => rfl
            | inr st2 => simp only []; rw [ih (i + 1 + 1) _ (by omega), hd2]
        · rw [ih (i + 1) _ (by omega), hd1]

/-- The result of `processCmd` in terms of the unread-token loop. -/
theorem processCmd_cons (env : Env) (v : Int) (tok0 : Str) (rest : List Str) :
    processCmd env v (tok0 :: rest) =
      match env.lookPath 0 with
      | none => .returned v [Event.lookPath tok0 none, Event.stderr msgResolving]
      | some path => processRest env rest (initState v tok0 path) := by
  unfold processCmd
  simp only [List.getElem?_cons_zero]
  cases env.lookPath 0 with
  | none => rfl
  | some path =>
    simp only []
    rw [processCmdLoop_eq_processRest env _ _ 1 _ (by simp)]
    rfl


/-! ## `processCmd`: the loop on parsed stages -/

theorem processRest_nil (env : Env) (st : State) : processRest env [] st = spawnLast env st := by
  simp [processRest]

theorem processRest_arg (env : Env) (tok : Str) (rest : List Str) (st : State)
    (h : tok ∉ metaChars) :
    processRest env (tok :: rest) st =
      processRest env rest { st with processedTokens := st.processedTokens ++ [tok] } := by
  simp only [metaChars, List.mem_cons, List.mem_singleton, List.not_mem_nil, or_false,
    not_or] at h
  obtain ⟨h1, h2, h3⟩ := h
  cases rest <;> simp [processRest, h1, h2, h3]

theorem processRest_stdin (env : Env) (name : Str) (rest : List Str) (st : State) :
    processRest env (['<'] :: name :: rest) st =
      match redirectStdin env name st with
      | .inl out => out
      | .inr st1 => processRest env rest st1 := by
  simp [processRest]

theorem processRest_stdout (env : Env) (name : Str) (rest : List Str) (st : State) :
    processRest env (['>'] :: name :: rest) st =
      match redirectStdout env name st with
      | .inl out => out
      | .inr st1 => processRest env rest st1 := by
  simp [processRest]

theorem processRest_pipe (env : Env) (tok1 : Str) (rest : List Str) (st : State) :
    processRest env (['|'] :: tok1 :: rest) st =
      match spawnPiped env st with
      | .inl out => out
      | .inr st1 =>
        match nextStage env tok1 st1 with
        | .inl out => out
        | .inr st2 => processRest env rest st2 := by
  simp [processRest]

theorem processRest_items (env : Env) (items : List Item) (rest : List Str) (st : State)
    (hwf : ∀ it ∈ items, it.WF) :
    processRest env (itemsTokens items ++ rest) st =
      match applyItems env items st with
      | .inl out => out
      | .inr st1 => processRest env rest st1 := by
  induction items generalizing st with
  | nil => simp [itemsTokens, applyItems]
  | cons it items ih =>
    have hwf1 : ∀ it ∈ items, it.WF := fun x hx => hwf x (by simp [hx])
    have hit : it.WF := hwf it (by simp)
    cases it with
    | arg tok =>
      have hx : itemsTokens (Item.arg tok :: items) ++ rest
          = tok :: (itemsTokens items ++ rest) := by
        simp [itemsTokens, Item.tokens]
      rw [hx, processRest_arg env tok _ st hit, ih _ hwf1]
      simp [applyItems, applyItem]
    | stdin name =>
      have hx : itemsTokens (Item.stdin name :: items) ++ rest
          = ['<'] :: name :: (itemsTokens items ++ rest) := by
        simp [itemsTokens, Item.tokens]
      rw [hx, processRest_stdin]
      simp only [applyItems, applyItem]
      cases redirectStdin env name st with
      | inl out => rfl
      | inr st1 => simp only []; exact ih st1 hwf1
    | stdout name =>
      have hx : itemsTokens (Item.stdout name :: items) ++ rest
          = ['>'] :: name :: (itemsTokens items ++ rest) := by
        simp [itemsTokens, Item.tokens]
      rw [hx, processRest_stdout]
      simp only [applyItems, applyItem]
      cases redirectStdout env name st with
      | inl out => rfl
      | inr st1 => simp only []; exact ih st1 hwf1

theorem processRest_eq_runStages (env : Env) (items : List Item) (later : List Stage)
    (st : State) (hwf : ∀ it ∈ items, it.WF) (hlater : ∀ s ∈ later, s.WF) :
    processRest env (itemsTokens items ++ laterTokens later) st = runStages env items later st := by
  induction later generalizing items st with
  | nil =>
    rw [processRest_items env items _ st hwf]
    simp only [runStages, laterTokens, List.flatMap_nil, processRest_nil]
  | cons s later ih =>
    have hs : s.WF := hlater s (by simp)
    have hl : ∀ s ∈ later, s.WF := fun x hx => hlater x (by simp [hx])
    rw [processRest_items env items _ st hwf]
    simp only [runStages]
    cases applyItems env items st with
    | inl out => rfl
    | inr st1 =>
      simp only []
      have hx : laterTokens (s :: later)
          = ['|'] :: s.cmd :: (itemsTokens s.items ++ laterTokens later) := by
        simp [laterTokens]
      rw [hx, processRest_pipe]
      cases spawnPiped env st1 with
      | inl out => rfl
      | inr st2 =>
        simp only []
        cases nextStage env s.cmd st2 with
        | inl out => rfl
        | inr st3 => simp only []; exact ih s.items st3 hs hl

/-- `processCmd` on the tokens of a well-formed pipeline. -/
theorem processCmd_pipelineTokens (env : Env) (v : Int) (first : Stage) (later : List Stage)
    (hfirst : first.WF) (hlater : ∀ s ∈ later, s.WF) :
    processCmd env v (pipelineTokens first later) =
      match env.lookPath 0 with
      | none => .returned v [Event.lookPath first.cmd none, Event.stderr msgResolving]
      | some path => runStages env first.items later (initState v first.cmd path) := by
  unfold pipelineTokens
  rw [processCmd_cons]
  cases env.lookPath 0 with
  | none => rfl
  | some path => simp only []; exact processRest_eq_runStages env _ _ _ hfirst hlater

theorem applyItems_ok (env : Env) (items : List Item) (st : State)
    (hopen : ∀ k, k < st.nOpen + redirs items → env.openFile k = true) :
    applyItems env items st = .inr (itemsState items st) := by
  induction items generalizing st with
  | nil => simp [applyItems, itemsState, itemsArgs, lastStdin, lastStdout, itemsOpens, redirs]
  | cons it items ih =>
    cases it with
    | arg tok =>
      simp only [applyItems, applyItem]
      rw [ih _ (by simpa [redirs] using hopen)]
      simp [itemsState, itemsArgs, lastStdin, lastStdout, itemsOpens, redirs]
    | stdin name =>
      have h0 : env.openFile st.nOpen = true :=
        hopen _ (by simp [redirs])
      simp only [applyItems, applyItem, redirectStdin, h0, if_true]
      rw [ih _ (by intro k hk; exact hopen k (by simp only [redirs] at hk ⊢; omega))]
      simp [itemsState, itemsArgs, lastStdin, lastStdout, itemsOpens, redirs, openEvent,
        Nat.add_assoc, Nat.add_comm 1]
    | stdout name =>
      have h0 : env.openFile st.nOpen = true :=
        hopen _ (by simp [redirs])
      simp only [applyItems, applyItem, redirectStdout, h0, if_true]
      rw [ih _ (by intro k hk; exact hopen k (by simp only [redirs] at hk ⊢; omega))]
      simp [itemsState, itemsArgs, lastStdin, lastStdout, itemsOpens, redirs, openEvent,
        Nat.add_assoc, Nat.add_comm 1]

/-! ## Reading a trace: lemmas -/

theorem spawns_append (a b : List Event) : spawns (a ++ b) = spawns a ++ spawns b := by
  induction a with
  | nil => rfl
  | cons e a ih =>
    cases e with
    | startProcess path argv attr res => cases res <;> simp [spawns, ih]
    | _ => simp [spawns, ih]

theorem reapers_append (a b : List Event) : reapers (a ++ b) = reapers a ++ reapers b := by
  induction a with
  | nil => rfl
  | cons e a ih => cases e <;> simp [reapers, ih]

theorem waits_append (a b : List Event) : waits (a ++ b) = waits a ++ waits b := by
  induction a with
  | nil => rfl
  | cons e a ih => cases e <;> simp [waits, ih]

theorem opens_append (a b : List Event) : opens (a ++ b) = opens a ++ opens b := by
  induction a with
  | nil => rfl
  | cons e a ih =>
    cases e with
    | openFile name flags res => cases res <;> simp [opens, ih]
    | _ => simp [opens, ih]

theorem diagnostics_append (a b : List Event) :
    diagnostics (a ++ b) = diagnostics a ++ diagnostics b := by
  induction a with
  | nil => rfl
  | cons e a ih => cases e <;> simp [diagnostics, ih]

theorem spawns_close (fs : List File) : spawns (fs.map Event.close) = [] := by
  induction fs with
  | nil => rfl
  | cons f fs ih => simpa [spawns] using ih

theorem reapers_close (fs : List File) : reapers (fs.map Event.close) = [] := by
  induction fs with
  | nil => rfl
  | cons f fs ih => simpa [reapers] using ih

theorem waits_close (fs : List File) : waits (fs.map Event.close) = [] := by
  induction fs with
  | nil => rfl
  | cons f fs ih => simpa [waits] using ih

theorem opens_close (fs : List File) : opens (fs.map Event.close) = [] := by
  induction fs with
  | nil => rfl
  | cons f fs ih => simpa [opens] using ih

theorem diagnostics_close (fs : List File) : diagnostics (fs.map Event.close) = [] := by
  induction fs with
  | nil => rfl
  | cons f fs ih => simpa [diagnostics] using ih

theorem spawns_openEvent (os : List (Str × List OpenFlag × File)) :
    spawns (os.map openEvent) = [] := by
  induction os with
  | nil => rfl
  | cons o os ih => simpa [spawns, openEvent] using ih

theorem reapers_openEvent (os : List (Str × List OpenFlag × File)) :
    reapers (os.map openEvent) = [] := by
  induction os with
  | nil => rfl
  | cons o os ih => simpa [reapers, openEvent] using ih

theorem waits_openEvent (os : List (Str × List OpenFlag × File)) :
    waits (os.map openEvent) = [] := by
  induction os with
  | nil => rfl
  | cons o os ih => simpa [waits, openEvent] using ih

theorem diagnostics_openEvent (os : List (Str × List OpenFlag × File)) :
    diagnostics (os.map openEvent) = [] := by
  induction os with
  | nil => rfl
  | cons o os ih => simpa [diagnostics, openEvent] using ih

theorem opens_openEvent (os : List (Str × List OpenFlag × File)) :
    opens (os.map openEvent) = os := by
  induction os with
  | nil => rfl
  | cons o os ih => simp [opens, openEvent, ih]

/-! ## Redirections inside one stage -/

theorem lastStdout_none (k : Nat) (cur : File) (items : List Item)
    (h : ∀ name, Item.stdout name ∉ items) : lastStdout k cur items = cur := by
  induction items generalizing k with
  | nil => rfl
  | cons it items ih =>
    have h1 : ∀ name, Item.stdout name ∉ items := fun n hn => h n (by simp [hn])
    cases it with
    | arg tok => simpa [lastStdout] using ih k h1
    | stdin name => simpa [lastStdout] using ih (k + 1) h1
    | stdout name => exact absurd (List.mem_cons_self _ _) (h name)

theorem lastStdout_last (k : Nat) (cur : File) (pre post : List Item) (name : Str)
    (h : ∀ n, Item.stdout n ∉ post) :
    lastStdout k cur (pre ++ Item.stdout name :: post) = File.fd (k + redirs pre) name stdoutFlags := by
  induction pre generalizing k cur with
  | nil => simpa [lastStdout, redirs] using lastStdout_none (k + 1) _ post h
  | cons it pre ih =>
    cases it with
    | arg tok => simpa [lastStdout, redirs] using ih k cur
    | stdin n =>
      have := ih (k + 1) cur
      rw [show k + 1 + redirs pre = k + (redirs pre + 1) by omega] at this
      simpa [lastStdout, redirs] using this
    | stdout n =>
      have := ih (k + 1) (File.fd k n stdoutFlags)
      rw [show k + 1 + redirs pre = k + (redirs pre + 1) by omega] at this
      simpa [lastStdout, redirs] using this

theorem lastStdin_none (k : Nat) (cur : File) (items : List Item)
    (h : ∀ name, Item.stdin name ∉ items) : lastStdin k cur items = cur := by
  induction items generalizing k with
  | nil => rfl
  | cons it items ih =>
    have h1 : ∀ name, Item.stdin name ∉ items := fun n hn => h n (by simp [hn])
    cases it with
    | arg tok => simpa [lastStdin] using ih k h1
    | stdout name => simpa [lastStdin] using ih (k + 1) h1
    | stdin name => exact absurd (List.mem_cons_self _ _) (h name)

theorem lastStdin_last (k : Nat) (cur : File) (pre post : List Item) (name : Str)
    (h : ∀ n, Item.stdin n ∉ post) :
    lastStdin k cur (pre ++ Item.stdin name :: post)
      = File.fd (k + redirs pre) name [OpenFlag.O_RDONLY] := by
  induction pre generalizing k cur with
  | nil => simpa [lastStdin, redirs] using lastStdin_none (k + 1) _ post h
  | cons it pre ih =>
    cases it with
    | arg tok => simpa [lastStdin, redirs] using ih k cur
    | stdout n =>
      have := ih (k + 1) cur
      rw [show k + 1 + redirs pre = k + (redirs pre + 1) by omega] at this
      simpa [lastStdin, redirs] using this
    | stdin n =>
      have := ih (k + 1) (File.fd k n [OpenFlag.O_RDONLY])
      rw [show k + 1 + redirs pre = k + (redirs pre + 1) by omega] at this
      simpa [lastStdin, redirs] using this

theorem spawnLast_ok (env : Env) (st : State)
    (h : env.startProcess st.nStart = true) :
    ∃ tr, spawnLast env st = .returned (ExitCode (env.wait st.nStart)) (st.trace ++ tr) ∧
      spawns tr = [(st.nStart, st.processedTokens, st.attrs)] ∧
      reapers tr = [] ∧ waits tr = [st.nStart] ∧ opens tr = [] ∧
      diagnostics tr = (if (env.wait st.nStart).isNone then [msgReaping] else []) := by
  refine ⟨[Event.startProcess st.path st.processedTokens st.attrs (some st.nStart),
         Event.wait st.nStart (env.wait st.nStart)] ++
        (if (env.wait st.nStart).isNone then [Event.stderr msgReaping] else []) ++
        st.deferred.map Event.close, ?_, ?_, ?_, ?_, ?_, ?_⟩
  · simp [spawnLast, h, State.ret, List.append_assoc]
  all_goals
    cases env.wait st.nStart <;>
      simp [spawns_append, reapers_append, waits_append, opens_append, diagnostics_append,
        spawns_close, reapers_close, waits_close, opens_close, diagnostics_close,
        spawns, reapers, waits, opens, diagnostics]

/-- A run of a single stage in which resolution, every open and the spawn
succeed. -/
theorem runStages_single_ok (env : Env) (items : List Item) (st : State)
    (hopen : ∀ k, k < st.nOpen + redirs items → env.openFile k = true)
    (hstart : env.startProcess st.nStart = true) :
    ∃ tr, runStages env items [] st
        = .returned (ExitCode (env.wait st.nStart)) (st.trace ++ tr) ∧
      spawns tr = [(st.nStart, st.processedTokens ++ itemsArgs items,
        { Files0 := lastStdin st.nOpen st.attrs.Files0 items
          Files1 := lastStdout st.nOpen st.attrs.Files1 items
          Files2 := st.attrs.Files2 })] ∧
      reapers tr = [] ∧ waits tr = [st.nStart] ∧ opens tr = itemsOpens st.nOpen items := by
  obtain ⟨tr, h1, h2, h3, h4, h5, _⟩ := spawnLast_ok env (itemsState items st) hstart
  refine ⟨(itemsOpens st.nOpen items).map openEvent ++ tr, ?_, ?_, ?_, ?_, ?_⟩
  · simp only [runStages, applyItems_ok env items st hopen, h1]
    simp [itemsState, List.append_assoc]
  · rw [spawns_append, spawns_openEvent, h2]
    simp [itemsState]
  · rw [reapers_append, reapers_openEvent, h3]
    rfl
  · rw [waits_append, waits_openEvent, h4]
    simp [itemsState]
  · rw [opens_append, opens_openEvent, h5]
    simp

/-- Claim C8: in a single stage `cmd item_1 ... item_m` whose redirection
operators are each followed by a file name, if resolution, every open and the
spawn succeed then one process is started, every redirection's file has been
opened in token order, the process's stdout is the handle opened for the last
`">"` (the interpreter's stdout if there is none) and its stdin is the handle
opened for the last `"<"` (the interpreter's stdin if there is none). -/
theorem processCmd_last_redirection_wins (env : Env) (v : Int) (cmd : Str) (items : List Item)
    (hwf : ∀ it ∈ items, it.WF)
    (hlook : (env.lookPath 0).isSome = true)
    (hopen : ∀ k, k < redirs items → env.openFile k = true)
    (hstart : env.startProcess 0 = true) :
    ∃ tr attr,
      processCmd env v (cmd :: itemsTokens items) = .returned (ExitCode (env.wait 0)) tr ∧
      spawns tr = [(0, cmd :: itemsArgs items, attr)] ∧
      opens tr = itemsOpens 0 items ∧
      ((∀ n, Item.stdout n ∉ items) → attr.Files1 = File.Stdout) ∧
      (∀ pre name post, items = pre ++ Item.stdout name :: post →
        (∀ n, Item.stdout n ∉ post) → attr.Files1 = File.fd (redirs pre) name stdoutFlags) ∧
      ((∀ n, Item.stdin n ∉ items) → attr.Files0 = File.Stdin) ∧
      (∀ pre name post, items = pre ++ Item.stdin name :: post →
        (∀ n, Item.stdin n ∉ post) →
          attr.Files0 = File.fd (redirs pre) name [OpenFlag.O_RDONLY]) ∧
      attr.Files2 = File.Stderr := by
  obtain ⟨path, hpath⟩ := Option.isSome_iff_exists.1 hlook
  have hrun := processCmd_pipelineTokens env v ⟨cmd, items⟩ [] hwf (by simp)
  simp only [pipelineTokens, laterTokens, List.flatMap_nil, List.append_nil, hpath] at hrun
  obtain ⟨tr, h1, h2, h3, h4, h5⟩ := runStages_single_ok env items (initState v cmd path)
    (by simpa [initState] using hopen) (by simpa [initState] using hstart)
  refine ⟨(initState v cmd path).trace ++ tr,
    { Files0 := lastStdin 0 File.Stdin items
      Files1 := lastStdout 0 File.Stdout items
      Files2 := File.Stderr }, ?_, ?_, ?_, ?_, ?_, ?_, ?_, ?_⟩
  · rw [hrun, h1]
    rfl
  · rw [spawns_append, h2]
    simp [initState, spawns]
  · rw [opens_append, h5]
    simp [initState, opens]
  · intro h
    simpa [initState] using lastStdout_none 0 File.Stdout items h
  · intro pre name post hitems h
    subst hitems
    simpa [initState] using lastStdout_last 0 File.Stdout pre post name h
  · intro h
    simpa [initState] using lastStdin_none 0 File.Stdin items h
  · intro pre name post hitems h
    subst hitems
    simpa [initState] using lastStdin_last 0 File.Stdin pre post name h
  · rfl

/-- Witness of C8 on `cmd > out1.txt > out2.txt`: `out1.txt` and `out2.txt` are
both opened, and the spawned process's stdout is the handle of `out2.txt`. -/
theorem processCmd_last_redirection_wins_witness :
    ∃ tr attr,
      processCmd (envScript [some "/bin/cmd".toList] [] (fun _ => 0)) 0
        ("cmd".toList :: itemsTokens [Item.stdout "out1.txt".toList, Item.stdout "out2.txt".toList])
        = .returned (ExitCode ((envScript [some "/bin/cmd".toList] [] (fun _ => 0)).wait 0)) tr ∧
      spawns tr = [(0, "cmd".toList ::
        itemsArgs [Item.stdout "out1.txt".toList, Item.stdout "out2.txt".toList], attr)] ∧
      opens tr = itemsOpens 0 [Item.stdout "out1.txt".toList, Item.stdout "out2.txt".toList] ∧
      attr.Files1 = File.fd 1 "out2.txt".toList stdoutFlags := by
  obtain ⟨tr, attr, h1, h2, h3, _, h5, _⟩ :=
    processCmd_last_redirection_wins (envScript [some "/bin/cmd".toList] [] (fun _ => 0)) 0 "cmd".toList
      [Item.stdout "out1.txt".toList, Item.stdout "out2.txt".toList]
      (by decide) (by decide) (fun _ _ => rfl) rfl
  exact ⟨tr, attr, h1, h2, h3,
    h5 [Item.stdout "out1.txt".toList] "out2.txt".toList [] rfl (by simp)⟩

/-- Claim C4 fails on the code: with a resolvable command, the lines `cat <`,
`ls >` and `ls |` make `processCmd` index past the end of the tokens, which
is a run-time panic and not a normal return (for `ls |` after `ls` has been
started). -/
theorem processCmd_trailing_operator_panics :
    processCmd (envScript [some "/bin/cat".toList] [] (fun _ => 0)) 0 (tokenize 0 "cat <".toList)
      = .panicked [Event.lookPath "cat".toList (some "/bin/cat".toList)] ∧
    processCmd (envScript [some "/bin/ls".toList] [] (fun _ => 0)) 0 (tokenize 0 "ls >".toList)
      = .panicked [Event.lookPath "ls".toList (some "/bin/ls".toList)] ∧
    processCmd (envScript [some "/bin/ls".toList] [] (fun _ => 0)) 0 (tokenize 0 "ls |".toList)
      = .panicked [Event.lookPath "ls".toList (some "/bin/ls".toList),
          Event.pipe (some (File.pipeRead 0, File.pipeWrite 0)),
          Event.startProcess "/bin/ls".toList ["ls".toList]
            { Files0 := File.Stdin, Files1 := File.pipeWrite 0, Files2 := File.Stderr } (some 0),
          Event.go 0 (File.pipeWrite 0)] := by
  decide

/-- Claim C9 fails on the code: on `a > f | b` the terminal stage `b`, whose
own segment holds no `">"`, is started with the file `f` opened by stage `a`
as its stdout, not with the interpreter's stdout. -/
theorem processCmd_redirect_leaks_to_next_stage :
    spawns (processCmd (envScript [some "/bin/a".toList, some "/bin/b".toList] [] (fun _ => 0)) 0 (tokenize 0 "a > f | b".toList)).trace
      = [(0, ["a".toList],
          { Files0 := File.Stdin, Files1 := File.pipeWrite 0, Files2 := File.Stderr }),
         (1, ["b".toList],
          { Files0 := File.pipeRead 0, Files1 := File.fd 0 "f".toList stdoutFlags,
            Files2 := File.Stderr })] := by
  decide

/-- Claim C10 fails on the code: the file of a `">"` redirection is opened with
the flags `O_RDWR|O_CREATE` only; truncation (`O_TRUNC`) is not requested (nor
is `O_APPEND`). -/
theorem processCmd_stdout_open_flags :
    opens (processCmd (envScript [some "/bin/echo".toList] [] (fun _ => 0)) 0 (tokenize 0 "echo hi > out.txt".toList)).trace
      = [("out.txt".toList, [OpenFlag.O_RDWR, OpenFlag.O_CREATE],
          File.fd 0 "out.txt".toList [OpenFlag.O_RDWR, OpenFlag.O_CREATE])] ∧
    OpenFlag.O_TRUNC ∉ stdoutFlags ∧ OpenFlag.O_APPEND ∉ stdoutFlags := by
  decide

/-! ## Invariants of the loop, for every token sequence -/

/-- Invariant rule for the loop of `processCmd`: a state property `P` kept by
every step that continues, and an outcome property `Q` established by every
step that leaves the function, give `Q` for the whole loop. -/
theorem processRest_invariant (env : Env) (P : State → Prop) (Q : Outcome → Prop)
    (hpanic : ∀ st, P st → Q st.panic)
    (hlast : ∀ st, P st → Q (spawnLast env st))
    (harg : ∀ st tok, P st → P { st with processedTokens := st.processedTokens ++ [tok] })
    (hin : ∀ st name, P st →
      (∀ out, redirectStdin env name st = .inl out → Q out) ∧
      (∀ st1, redirectStdin env name st = .inr st1 → P st1))
    (hout : ∀ st name, P st →
      (∀ out, redirectStdout env name st = .inl out → Q out) ∧
      (∀ st1, redirectStdout env name st = .inr st1 → P st1))
    (hpipe : ∀ st, P st →
      (∀ out, spawnPiped env st = .inl out → Q out) ∧
      (∀ st1, spawnPiped env st = .inr st1 → P st1))
    (hnext : ∀ st tok, P st →
      (∀ out, nextStage env tok st = .inl out → Q out) ∧
      (∀ st1, nextStage env tok st = .inr st1 → P st1)) :
    ∀ (l : List Str) (st : State), P st → Q (processRest env l st)
  | [], st, h => by
    rw [processRest_nil]
    exact hlast st h
  | [tok], st, h => by
    unfold processRest
    split_ifs
    · exact hpanic st h
    · exact hpanic st h
    · cases hr : spawnPiped env st with
      | inl out => exact (hpipe st h).1 out hr
      | inr st1 => exact hpanic st1 ((hpipe st h).2 st1 hr)
    · exact hlast _ (harg st tok h)
  | tok :: tok1 :: rest, st, h => by
    unfold processRest
    split_ifs
    · cases hr : redirectStdin env tok1 st with
      | inl out => exact (hin st tok1 h).1 out hr
      | inr st1 =>
        exact processRest_invariant env P Q hpanic hlast harg hin hout hpipe hnext rest st1
          ((hin st tok1 h).2 st1 hr)
    · cases hr : redirectStdout env tok1 st with
      | inl out => exact (hout st tok1 h).1 out hr
      | inr st1 =>
        exact processRest_invariant env P Q hpanic hlast harg hin hout hpipe hnext rest st1
          ((hout st tok1 h).2 st1 hr)
    · cases hr : spawnPiped env st with
      | inl out => exact (hpipe st h).1 out hr
      | inr st1 =>
        have h1 := (hpipe st h).2 st1 hr
        dsimp only
        cases hr2 : nextStage env tok1 st1 with
        | inl out => exact (hnext st1 tok1 h1).1 out hr2
        | inr st2 =>
          exact processRest_invariant env P Q hpanic hlast harg hin hout hpipe hnext rest st2
            ((hnext st1 tok1 h1).2 st2 hr2)
    · exact processRest_invariant env P Q hpanic hlast harg hin hout hpipe hnext (tok1 :: rest) _
        (harg st tok h)

/-- The model never runs out of fuel: `processCmd` returns or panics. -/
theorem processCmd_fuel (env : Env) (v : Int) (tokens : List Str) :
    processCmd env v tokens ≠ .outOfFuel := by
  cases tokens with
  | nil => simp [processCmd]
  | cons tok0 rest =>
    rw [processCmd_cons]
    cases env.lookPath 0 with
    | none => simp
    | some path =>
      simp only []
      refine processRest_invariant env (fun _ => True) (fun o => o ≠ .outOfFuel)
        ?_ ?_ ?_ ?_ ?_ ?_ ?_ rest _ trivial
      · intro st _; simp [State.panic]
      · intro st _; unfold spawnLast; split_ifs <;> simp [State.ret]
      · intro st tok _; trivial
      · intro st name _
        refine ⟨?_, fun _ _ => trivial⟩
        intro out h
        unfold redirectStdin at h
        split_ifs at h
        simp only [Sum.inl.injEq] at h
        subst h
        simp [State.ret]
      · intro st name _
        refine ⟨?_, fun _ _ => trivial⟩
        intro out h
        unfold redirectStdout at h
        split_ifs at h
        simp only [Sum.inl.injEq] at h
        subst h
        simp [State.ret]
      · intro st _
        refine ⟨?_, fun _ _ => trivial⟩
        intro out h
        unfold spawnPiped at h
        simp only at h
        split_ifs at h
        all_goals
          simp only [Sum.inl.injEq] at h
          subst h
          simp [State.ret]
      · intro st tok _
        refine ⟨?_, fun _ _ => trivial⟩
        intro out h
        unfold nextStage at h
        split at h
        · exact absurd h (by simp)
        · simp only [Sum.inl.injEq] at h
          subst h
          simp [State.ret]

/-! ## The last exit code: lemmas -/

theorem exitCodeRule_ret (env : Env) (v : Int) (st : State) (tr : List Event)
    (hv : st.lastExitCode = v) (hw : waits st.trace = []) (htr : waits tr = []) :
    ExitCodeRule env v ({ st with trace := st.trace ++ tr }).ret := by
  intro e tr' h
  simp only [State.ret, Outcome.returned.injEq] at h
  obtain ⟨he, ht⟩ := h
  left
  subst ht
  refine ⟨?_, by rw [← he, hv]⟩
  simp [waits_append, hw, htr, waits_close]

theorem exitCodeRule_loop (env : Env) (v : Int) (l : List Str) (st : State)
    (hv : st.lastExitCode = v) (hw : waits st.trace = []) :
    ExitCodeRule env v (processRest env l st) := by
  refine processRest_invariant env (fun st => st.lastExitCode = v ∧ waits st.trace = [])
    (ExitCodeRule env v) ?_ ?_ ?_ ?_ ?_ ?_ ?_ l st ⟨hv, hw⟩
  · intro st _ e tr h
    simp [State.panic] at h
  · rintro st ⟨hv, hw⟩
    unfold spawnLast
    split_ifs with hs
    · intro e tr h
      right
      simp only [State.ret, Outcome.returned.injEq] at h
      obtain ⟨he, ht⟩ := h
      subst ht
      refine ⟨st.nStart, st.processedTokens, st.attrs, ?_, ?_, he.symm⟩
      · cases env.wait st.nStart <;> simp [waits_append, hw, waits_close, waits]
      · cases env.wait st.nStart <;>
          simp [spawns_append, spawns_close, spawns, List.getLast?_append]
    · exact exitCodeRule_ret env v
        { st with nStart := st.nStart + 1 } _ hv hw (by simp [waits])
  · rintro st tok ⟨hv, hw⟩
    exact ⟨hv, hw⟩
  · rintro st name ⟨hv, hw⟩
    unfold redirectStdin
    split_ifs
    · refine ⟨fun out h => by simp at h, ?_⟩
      intro st1 h
      simp only [Sum.inr.injEq] at h
      subst h
      exact ⟨hv, by simp [waits_append, hw, waits]⟩
    · refine ⟨?_, fun st1 h => by simp at h⟩
      intro out h
      simp only [Sum.inl.injEq] at h
      subst h
      exact exitCodeRule_ret env v { st with nOpen := st.nOpen + 1 } _ hv hw (by simp [waits])
  · rintro st name ⟨hv, hw⟩
    unfold redirectStdout
    split_ifs
    · refine ⟨fun out h => by simp at h, ?_⟩
      intro st1 h
      simp only [Sum.inr.injEq] at h
      subst h
      exact ⟨hv, by simp [waits_append, hw, waits]⟩
    · refine ⟨?_, fun st1 h => by simp at h⟩
      intro out h
      simp only [Sum.inl.injEq] at h
      subst h
      exact exitCodeRule_ret env v { st with nOpen := st.nOpen + 1 } _ hv hw (by simp [waits])
  · rintro st ⟨hv, hw⟩
    unfold spawnPiped
    dsimp only
    split_ifs with hp hs hs
    · refine ⟨fun out h => by simp at h, ?_⟩
      intro st1 h
      simp only [Sum.inr.injEq] at h
      subst h
      exact ⟨hv, by simp [waits_append, hw, waits]⟩
    · refine ⟨fun out h => by simp at h, ?_⟩
      intro st1 h
      simp only [Sum.inr.injEq] at h
      subst h
      exact ⟨hv, by simp [waits_append, hw, waits]⟩
    · refine ⟨?_, fun st1 h => by simp at h⟩
      intro out h
      simp only [Sum.inl.injEq] at h
      subst h
      intro e tr h
      simp only [State.ret, Outcome.returned.injEq] at h
      obtain ⟨he, ht⟩ := h
      left
      subst ht
      exact ⟨by simp [waits_append, hw, waits, waits_close], by rw [← he, hv]⟩
    · refine ⟨?_, fun st1 h => by simp at h⟩
      intro out h
      simp only [Sum.inl.injEq] at h
      subst h
      intro e tr h
      simp only [State.ret, Outcome.returned.injEq] at h
      obtain ⟨he, ht⟩ := h
      left
      subst ht
      exact ⟨by simp [waits_append, hw, waits, waits_close], by rw [← he, hv]⟩
  · rintro st tok ⟨hv, hw⟩
    unfold nextStage
    cases env.lookPath st.nLookPath with
    | some path =>
      refine ⟨fun out h => by simp at h, ?_⟩
      intro st1 h
      simp only [Sum.inr.injEq] at h
      subst h
      exact ⟨hv, by simp [waits_append, hw, waits]⟩
    | none =>
      refine ⟨?_, fun st1 h => by simp at h⟩
      intro out h
      simp only [Sum.inl.injEq] at h
      subst h
      exact exitCodeRule_ret env v
        { st with processedTokens := [tok], nLookPath := st.nLookPath + 1 } _ hv hw
        (by simp [waits])

theorem spawnLast_wait_congr (env : Env) (w : Nat → Option Int) (st : State)
    (h : ∀ p ∈ waits (spawnLast env st).trace, w p = env.wait p) :
    spawnLast { env with wait := w } st = spawnLast env st := by
  unfold spawnLast at h ⊢
  by_cases hs : env.startProcess st.nStart = true
  · have hw : w st.nStart = env.wait st.nStart := by
      apply h
      simp [hs, State.ret, Outcome.trace, waits_append, waits]
    simp [hs, hw]
  · simp [hs]

theorem processRest_wait_congr (env : Env) (w : Nat → Option Int) :
    ∀ (l : List Str) (st : State),
      (∀ p ∈ waits (processRest env l st).trace, w p = env.wait p) →
      processRest { env with wait := w } l st = processRest env l st
  | [], st, h => by
    rw [processRest_nil] at h ⊢
    exact spawnLast_wait_congr env w st h
  | [tok], st, h => by
    unfold processRest at h ⊢
    split_ifs at h ⊢
    · rfl
    · rfl
    · rfl
    · exact spawnLast_wait_congr env w _ h
  | tok :: tok1 :: rest, st, h => by
    unfold processRest at h ⊢
    split_ifs at h ⊢
    · show (match redirectStdin env tok1 st with
        | .inl out => out
        | .inr st1 => processRest { env with wait := w } rest st1) = _
      cases hr : redirectStdin env tok1 st with
      | inl out => rfl
      | inr st1 =>
        rw [hr] at h
        exact processRest_wait_congr env w rest st1 h
    · show (match redirectStdout env tok1 st with
        | .inl out => out
        | .inr st1 => processRest { env with wait := w } rest st1) = _
      cases hr : redirectStdout env tok1 st with
      | inl out => rfl
      | inr st1 =>
        rw [hr] at h
        exact processRest_wait_congr env w rest st1 h
    · show (match spawnPiped env st with
        | .inl out => out
        | .inr st1 =>
          match nextStage env tok1 st1 with
          | .inl out => out
          | .inr st2 => processRest { env with wait := w } rest st2) = _
      cases hr : spawnPiped env st with
      | inl out => rfl
      | inr st1 =>
        rw [hr] at h
        dsimp only at h ⊢
        cases hr2 : nextStage env tok1 st1 with
        | inl out => rfl
        | inr st2 =>
          rw [hr2] at h
          exact processRest_wait_congr env w rest st2 h
    · exact processRest_wait_congr env w (tok1 :: rest) _ h

theorem unreaped_of_eq (tr : List Event)
    (h : (spawns tr).map (fun s => s.1) = (reapers tr).map (fun r => r.1)) :
    unreaped tr = [] := by
  unfold unreaped
  rw [h, List.filter_eq_nil_iff]
  intro p hp
  simpa using hp

theorem reapInv_ret (st : State) (h : ReapInv st) : ReapRule st.ret := by
  obtain ⟨h1, h2, _⟩ := h
  intro e tr hret
  simp only [State.ret, Outcome.returned.injEq] at hret
  obtain ⟨_, rfl⟩ := hret
  left
  refine ⟨unreaped_of_eq _ ?_, ?_⟩
  · simp only [spawns_append, reapers_append, spawns_close, reapers_close, List.append_nil]
    exact h2
  · simp only [waits_append, waits_close, List.append_nil]
    exact h1

theorem reapInv_extend (st st1 : State) (tr : List Event) (h : ReapInv st)
    (ht : st1.trace = st.trace ++ tr) (hn : st.nStart ≤ st1.nStart)
    (hw : waits tr = []) (hs : spawns tr = []) (hr : reapers tr = []) : ReapInv st1 := by
  obtain ⟨h1, h2, h3⟩ := h
  unfold ReapInv
  rw [ht, waits_append, spawns_append, reapers_append, hw, hs, hr]
  simp only [List.append_nil]
  exact ⟨h1, h2, fun p hp => Nat.lt_of_lt_of_le (h3 p hp) hn⟩

theorem reapInv_piped (st st1 : State) (tr : List Event) (h : ReapInv st)
    (ht : st1.trace = st.trace ++ tr) (hn : st1.nStart = st.nStart + 1)
    (hw : waits tr = []) (hs : (spawns tr).map (fun s => s.1) = [st.nStart])
    (hr : (reapers tr).map (fun r => r.1) = [st.nStart]) : ReapInv st1 := by
  obtain ⟨h1, h2, h3⟩ := h
  unfold ReapInv
  rw [ht, waits_append, spawns_append, reapers_append, hw, List.map_append, List.map_append,
    hs, hr, h2, hn]
  refine ⟨by simpa using h1, rfl, ?_⟩
  intro p hp
  simp only [List.mem_append, List.mem_singleton] at hp
  rcases hp with hp | rfl
  · exact Nat.lt_succ_of_lt (h3 p (by rw [h2]; exact hp))
  · exact Nat.lt_succ_self _

theorem reapRule_loop (env : Env) (l : List Str) (st : State) (h : ReapInv st) :
    ReapRule (processRest env l st) := by
  refine processRest_invariant env ReapInv ReapRule ?_ ?_ ?_ ?_ ?_ ?_ ?_ l st h
  · intro st _ e tr h
    simp [State.panic] at h
  · intro st hP
    unfold spawnLast
    split_ifs with hs
    · obtain ⟨h1, h2, h3⟩ := hP
      intro e tr hret
      simp only [State.ret, Outcome.returned.injEq] at hret
      obtain ⟨_, rfl⟩ := hret
      right
      refine ⟨st.nStart, ?_, ?_⟩
      · have hnot : st.nStart ∉ (reapers st.trace).map (fun r => r.1) := by
          intro hmem
          rw [← h2] at hmem
          exact Nat.lt_irrefl _ (h3 _ hmem)
        have hall : ∀ p ∈ (reapers st.trace).map (fun r => r.1),
            ((reapers st.trace).map (fun r => r.1)).contains p = true := by
          intro p hp
          simpa using hp
        unfold unreaped
        cases env.wait st.nStart <;>
          simp only [spawns_append, reapers_append, spawns_close, reapers_close, spawns,
            reapers, List.append_nil, List.map_append, List.map_cons, List.map_nil, h2,
            List.filter_append, Option.isNone_none, Option.isNone_some, if_true, if_false,
            Bool.false_eq_true] <;>
          · rw [List.filter_eq_nil_iff.2 (by
              intro p hp
              simpa using hp)]
            simpa using hnot
      · cases env.wait st.nStart <;> simp [waits_append, h1, waits_close, waits]
    · exact reapInv_ret _ (reapInv_extend st _ _ hP rfl (Nat.le_succ _)
        (by simp [waits]) (by simp [spawns]) (by simp [reapers]))
  · intro st tok hP
    exact hP
  · intro st name hP
    unfold redirectStdin
    split_ifs
    · refine ⟨fun out h => by simp at h, ?_⟩
      intro st1 h
      simp only [Sum.inr.injEq] at h
      subst h
      exact reapInv_extend st _ _ hP rfl (Nat.le_refl _)
        (by simp [waits]) (by simp [spawns]) (by simp [reapers])
    · refine ⟨?_, fun st1 h => by simp at h⟩
      intro out h
      simp only [Sum.inl.injEq] at h
      subst h
      exact reapInv_ret _ (reapInv_extend st _ _ hP rfl (Nat.le_refl _)
        (by simp [waits]) (by simp [spawns]) (by simp [reapers]))
  · intro st name hP
    unfold redirectStdout
    split_ifs
    · refine ⟨fun out h => by simp at h, ?_⟩
      intro st1 h
      simp only [Sum.inr.injEq] at h
      subst h
      exact reapInv_extend st _ _ hP rfl (Nat.le_refl _)
        (by simp [waits]) (by simp [spawns]) (by simp [reapers])
    · refine ⟨?_, fun st1 h => by simp at h⟩
      intro out h
      simp only [Sum.inl.injEq] at h
      subst h
      exact reapInv_ret _ (reapInv_extend st _ _ hP rfl (Nat.le_refl _)
        (by simp [waits]) (by simp [spawns]) (by simp [reapers]))
  · intro st hP
    unfold spawnPiped
    dsimp only
    split_ifs with hs hp hp
    · refine ⟨fun out h => by simp at h, ?_⟩
      intro st1 h
      simp only [Sum.inr.injEq] at h
      subst h
      exact reapInv_piped st _ _ hP (List.append_assoc _ _ _) rfl
        (by simp [waits]) (by simp [spawns]) (by simp [reapers])
    · refine ⟨fun out h => by simp at h, ?_⟩
      intro st1 h
      simp only [Sum.inr.injEq] at h
      subst h
      exact reapInv_piped st _ _ hP (List.append_assoc _ _ _) rfl
        (by simp [waits]) (by simp [spawns]) (by simp [reapers])
    · refine ⟨?_, fun st1 h => by simp at h⟩
      intro out h
      simp only [Sum.inl.injEq] at h
      subst h
      exact reapInv_ret _ (reapInv_extend st _ _ hP (List.append_assoc _ _ _)
        (Nat.le_succ _) (by simp [waits]) (by simp [spawns]) (by simp [reapers]))
    · refine ⟨?_, fun st1 h => by simp at h⟩
      intro out h
      simp only [Sum.inl.injEq] at h
      subst h
      exact reapInv_ret _ (reapInv_extend st _ _ hP (List.append_assoc _ _ _)
        (Nat.le_succ _) (by simp [waits]) (by simp [spawns]) (by simp [reapers]))
  · intro st tok hP
    unfold nextStage
    cases env.lookPath st.nLookPath with
    | some path =>
      refine ⟨fun out h => by simp at h, ?_⟩
      intro st1 h
      simp only [Sum.inr.injEq] at h
      subst h
      exact reapInv_extend st _ _ hP rfl (Nat.le_refl _)
        (by simp [waits]) (by simp [spawns]) (by simp [reapers])
    | none =>
      refine ⟨?_, fun st1 h => by simp at h⟩
      intro out h
      simp only [Sum.inl.injEq] at h
      subst h
      exact reapInv_ret _ (reapInv_extend st _ _ hP rfl (Nat.le_refl _)
        (by simp [waits]) (by simp [spawns]) (by simp [reapers]))

theorem processCmd_reapRule (env : Env) (v : Int) (tokens : List Str) :
    ReapRule (processCmd env v tokens) := by
  cases tokens with
  | nil =>
    intro e tr h
    simp [processCmd] at h
  | cons tok0 rest =>
    rw [processCmd_cons]
    cases env.lookPath 0 with
    | none =>
      intro e tr h
      simp only [Outcome.returned.injEq] at h
      obtain ⟨_, rfl⟩ := h
      left
      exact ⟨unreaped_of_eq _ (by simp [spawns, reapers]), by simp [waits]⟩
    | some path =>
      exact reapRule_loop env rest (initState v tok0 path)
        ⟨by simp [initState, waits], by simp [initState, spawns, reapers],
          by simp [initState, spawns]⟩

theorem processCmd_exitCodeRule (env : Env) (v : Int) (tokens : List Str) :
    ExitCodeRule env v (processCmd env v tokens) := by
  cases tokens with
  | nil =>
    intro e tr h
    simp [processCmd] at h
  | cons tok0 rest =>
    rw [processCmd_cons]
    cases env.lookPath 0 with
    | none =>
      intro e tr h
      simp only [Outcome.returned.injEq] at h
      obtain ⟨he, rfl⟩ := h
      left
      exact ⟨by simp [waits], he.symm⟩
    | some path =>
      exact exitCodeRule_loop env v rest (initState v tok0 path) rfl
        (by simp [initState, waits])

theorem processCmd_wait_congr (env : Env) (v : Int) (tokens : List Str) (e : Int)
    (tr : List Event) (h : processCmd env v tokens = .returned e tr)
    (w : Nat → Option Int) (hw : ∀ p ∈ waits tr, w p = env.wait p) :
    processCmd { env with wait := w } v tokens = .returned e tr := by
  cases tokens with
  | nil => simp [processCmd] at h
  | cons tok0 rest =>
    rw [processCmd_cons] at h ⊢
    show (match env.lookPath 0 with
      | none => Outcome.returned v [Event.lookPath tok0 none, Event.stderr msgResolving]
      | some path => processRest { env with wait := w } rest (initState v tok0 path)) = _
    cases hl : env.lookPath 0 with
    | none =>
      rw [hl] at h
      exact h
    | some path =>
      rw [hl] at h
      dsimp only at h ⊢
      rw [processRest_wait_congr env w rest _ (by rw [h]; exact hw)]
      exact h

/-- Claim C7: when `processCmd` returns with trace `tr`, the terminal stage has
been spawned exactly when `unreaped tr`, the processes started without a
reaper, is not empty. If it is empty (the run was aborted by a resolution, open
or spawn failure), the main control flow waited for nothing and `lastExitCode`
still has its prior value `v`. If a process `p` is in it, then `p` is the only
such process and the last one started, the main control flow waited for `p` and
for nothing else, and `lastExitCode` is the exit code reported by that wait.
Replacing the wait results of all other processes (the intermediate stages)
leaves the outcome unchanged. Before any command has run `lastExitCode` is 0,
so that `echo $?` tokenizes to `["echo", "0"]`. -/
theorem processCmd_lastExitCode (env : Env) (v : Int) (tokens : List Str) (e : Int)
    (tr : List Event) (h : processCmd env v tokens = .returned e tr) :
    (unreaped tr = [] → waits tr = [] ∧ e = v) ∧
    (∀ p, p ∈ unreaped tr →
      unreaped tr = [p] ∧ waits tr = [p] ∧
      (∃ argv attr, (spawns tr).getLast? = some (p, argv, attr)) ∧
      e = ExitCode (env.wait p)) ∧
    (∀ w : Nat → Option Int, (∀ p ∈ waits tr, w p = env.wait p) →
      processCmd { env with wait := w } v tokens = .returned e tr) ∧
    initialLastExitCode = 0 ∧
    tokenize initialLastExitCode "echo $?".toList = ["echo".toList, "0".toList] := by
  have hR := processCmd_reapRule env v tokens e tr h
  have hE := processCmd_exitCodeRule env v tokens e tr h
  refine ⟨?_, ?_, processCmd_wait_congr env v tokens e tr h, rfl, by decide⟩
  · intro hu
    rcases hR with ⟨_, hw⟩ | ⟨p, hp, _⟩
    · rcases hE with ⟨_, he⟩ | ⟨q, _, _, hq, _, _⟩
      · exact ⟨hw, he⟩
      · rw [hw] at hq
        exact absurd hq (by simp)
    · rw [hu] at hp
      exact absurd hp (by simp)
  · intro p hp
    rcases hR with ⟨hu, _⟩ | ⟨q, hq, hw⟩
    · rw [hu] at hp
      exact absurd hp (by simp)
    · rw [hq, List.mem_singleton] at hp
      subst hp
      rcases hE with ⟨hw0, _⟩ | ⟨r, argv, attr, hr, hlast, he⟩
      · rw [hw] at hw0
        exact absurd hw0 (by simp)
      · rw [hw] at hr
        simp only [List.cons.injEq, and_true] at hr
        subst hr
        exact ⟨hq, hw, ⟨argv, attr, hlast⟩, he⟩

/-- Witness of C7 on `a | b` with prior value 5, where process 0 exits with 1
and process 1 (the terminal stage) with 42: `lastExitCode` becomes 42. -/
theorem processCmd_lastExitCode_witness :
    unreaped (processCmd (envScript [some "/bin/a".toList, some "/bin/b".toList] []
        (fun p => if p = 1 then 42 else 1)) 5 ["a".toList, "|".toList, "b".toList]).trace = [1] ∧
    waits (processCmd (envScript [some "/bin/a".toList, some "/bin/b".toList] []
        (fun p => if p = 1 then 42 else 1)) 5 ["a".toList, "|".toList, "b".toList]).trace = [1] ∧
    (∃ argv attr, (spawns (processCmd (envScript [some "/bin/a".toList, some "/bin/b".toList] []
        (fun p => if p = 1 then 42 else 1)) 5
        ["a".toList, "|".toList, "b".toList]).trace).getLast? = some (1, argv, attr)) ∧
    (42 : Int) = ExitCode ((envScript [some "/bin/a".toList, some "/bin/b".toList] []
        (fun p => if p = 1 then 42 else 1)).wait 1) :=
  (processCmd_lastExitCode (envScript [some "/bin/a".toList, some "/bin/b".toList] []
      (fun p => if p = 1 then 42 else 1)) 5 ["a".toList, "|".toList, "b".toList] 42 _
    (by decide)).2.1 1 (by decide)

/-! ## Pipelines in which every call succeeds -/

theorem redirs_append (a b : List Item) : redirs (a ++ b) = redirs a + redirs b := by
  induction a with
  | nil => simp [redirs]
  | cons it a ih => cases it <;> simp [redirs, ih] <;> omega

theorem itemsOpens_append (k : Nat) (a b : List Item) :
    itemsOpens k (a ++ b) = itemsOpens k a ++ itemsOpens (k + redirs a) b := by
  induction a generalizing k with
  | nil => simp [itemsOpens, redirs]
  | cons it a ih =>
    cases it with
    | arg tok => simp [itemsOpens, redirs, ih]
    | stdin name =>
      have h := ih (k + 1)
      rw [show k + 1 + redirs a = k + (redirs a + 1) by omega] at h
      simp only [List.cons_append, itemsOpens, redirs]
      exact congrArg _ h
    | stdout name =>
      have h := ih (k + 1)
      rw [show k + 1 + redirs a = k + (redirs a + 1) by omega] at h
      simp only [List.cons_append, itemsOpens, redirs]
      exact congrArg _ h

theorem spawnPiped_ok (env : Env) (st : State) (hpipe : env.pipe st.nPipe = true)
    (hstart : env.startProcess st.nStart = true) :
    spawnPiped env st = .inr (pipedState st) := by
  simp [spawnPiped, hpipe, hstart, pipedState]

theorem nextStage_ok (env : Env) (tok path : Str) (st : State)
    (h : env.lookPath st.nLookPath = some path) :
    nextStage env tok st = .inr (resolvedState tok path st) := by
  simp [nextStage, h, resolvedState]

/-- One stage followed by `"|"`, every call succeeding. -/
theorem runStages_cons_ok (env : Env) (items : List Item) (s : Stage) (later : List Stage)
    (st : State) (path : Str)
    (hopen : ∀ k, k < st.nOpen + redirs items → env.openFile k = true)
    (hpipe : env.pipe st.nPipe = true)
    (hstart : env.startProcess st.nStart = true)
    (hlook : env.lookPath st.nLookPath = some path) :
    runStages env items (s :: later) st =
      runStages env s.items later (resolvedState s.cmd path (pipedState (itemsState items st))) := by
  simp only [runStages, applyItems_ok env items st hopen]
  rw [spawnPiped_ok env _ (by simpa [itemsState] using hpipe)
    (by simpa [itemsState] using hstart)]
  dsimp only
  rw [nextStage_ok env s.cmd path _ (by simpa [itemsState, pipedState] using hlook)]

theorem range_succ_map_cons {α : Type} (f : Nat → α) (n : Nat) :
    (List.range (n + 1)).map f = f 0 :: (List.range n).map (fun i => f (i + 1)) := by
  rw [List.range_succ_eq_map]
  simp [List.map_map, Function.comp_def]

theorem runStages_ok (env : Env) (later : List Stage) :
    ∀ (items : List Item) (st : State),
      (∀ k, k < st.nOpen + redirs (items ++ stagesItems later) →
        env.openFile k = true) →
      (∀ k, k < st.nPipe + later.length → env.pipe k = true) →
      (∀ k, k < st.nStart + later.length + 1 →
        env.startProcess k = true) →
      (∀ k, k < st.nLookPath + later.length → (env.lookPath k).isSome = true) →
      ∃ tr, runStages env items later st
          = .returned (ExitCode (env.wait (st.nStart + later.length))) (st.trace ++ tr) ∧
        spawns tr = stageSpawns st.nStart st.nPipe st.nOpen st.attrs st.processedTokens items later ∧
        reapers tr = (List.range later.length).map
          (fun i => (st.nStart + i, File.pipeWrite (st.nPipe + i))) ∧
        waits tr = [st.nStart + later.length] ∧
        opens tr = itemsOpens st.nOpen (items ++ stagesItems later) := by
  induction later with
  | nil =>
    intro items st hopen _ hstart _
    obtain ⟨tr, h1, h2, h3, h4, h5⟩ := runStages_single_ok env items st
      (by simpa [stagesItems] using hopen) (hstart st.nStart (by simp))
    exact ⟨tr, by simpa using h1, by simpa [stageSpawns] using h2, by simpa using h3,
      by simpa using h4, by simpa [stagesItems] using h5⟩
  | cons s later ih =>
    intro items st hopen hpipe hstart hlook
    have hred : redirs (items ++ stagesItems (s :: later))
        = redirs items + redirs (s.items ++ stagesItems later) := by
      simp [stagesItems, redirs_append]
    obtain ⟨path, hpath⟩ := Option.isSome_iff_exists.1
      (hlook st.nLookPath (by simp))
    rw [runStages_cons_ok env items s later st path
      (fun k hk => hopen k (by rw [hred]; omega))
      (hpipe _ (by simp)) (hstart _ (by simp; omega)) hpath]
    obtain ⟨tr, h1, h2, h3, h4, h5⟩ := ih s.items
      (resolvedState s.cmd path (pipedState (itemsState items st)))
      (fun k hk => hopen k (by
        rw [hred]
        simpa [resolvedState, pipedState, itemsState, Nat.add_assoc] using hk))
      (fun k hk => hpipe k (by
        simp only [resolvedState, pipedState, itemsState] at hk
        simp only [List.length_cons]
        omega))
      (fun k hk => hstart k (by
        simp only [resolvedState, pipedState, itemsState] at hk
        simp only [List.length_cons]
        omega))
      (fun k hk => hlook k (by
        simp only [resolvedState, pipedState, itemsState] at hk
        simp only [List.length_cons]
        omega))
    refine ⟨(itemsOpens st.nOpen items).map openEvent ++
      [Event.pipe (some (File.pipeRead st.nPipe, File.pipeWrite st.nPipe)),
       Event.startProcess st.path (st.processedTokens ++ itemsArgs items)
         { Files0 := lastStdin st.nOpen st.attrs.Files0 items, Files1 := File.pipeWrite st.nPipe,
           Files2 := st.attrs.Files2 } (some st.nStart),
       Event.go st.nStart (File.pipeWrite st.nPipe),
       Event.lookPath s.cmd (some path)] ++ tr, ?_, ?_, ?_, ?_, ?_⟩
    · rw [h1]
      simp [resolvedState, pipedState, itemsState, List.append_assoc, Nat.add_assoc,
        Nat.add_comm 1]
    · simp only [spawns_append, spawns_openEvent, h2, spawns, stageSpawns]
      simp [resolvedState, pipedState, itemsState]
    · simp only [reapers_append, reapers_openEvent, h3, reapers, List.length_cons]
      rw [range_succ_map_cons]
      simp [resolvedState, pipedState, itemsState, Nat.add_assoc, Nat.add_comm 1]
    · simp only [waits_append, waits_openEvent, h4, waits]
      simp [resolvedState, pipedState, itemsState, Nat.add_assoc, Nat.add_comm 1]
    · simp only [opens_append, opens_openEvent, h5, opens]
      simp [resolvedState, pipedState, itemsState, stagesItems, itemsOpens_append]

/-! ## Pipelines of plain tokens -/

theorem itemsTokens_args (l : List Str) : itemsTokens (l.map Item.arg) = l := by
  induction l with
  | nil => rfl
  | cons a l ih =>
    simp only [itemsTokens, List.map_cons, List.flatMap_cons, Item.tokens] at ih ⊢
    simp [ih]

theorem itemsArgs_args (l : List Str) : itemsArgs (l.map Item.arg) = l := by
  induction l with
  | nil => rfl
  | cons a l ih => simp [itemsArgs, ih]

theorem redirs_args (l : List Str) : redirs (l.map Item.arg) = 0 := by
  induction l with
  | nil => rfl
  | cons a l ih => simp [redirs, ih]

theorem itemsOpens_args (k : Nat) (l : List Str) : itemsOpens k (l.map Item.arg) = [] := by
  induction l with
  | nil => rfl
  | cons a l ih => simp [itemsOpens, ih]

theorem lastStdin_args (k : Nat) (cur : File) (l : List Str) :
    lastStdin k cur (l.map Item.arg) = cur := by
  induction l with
  | nil => rfl
  | cons a l ih => simp [lastStdin, ih]

theorem lastStdout_args (k : Nat) (cur : File) (l : List Str) :
    lastStdout k cur (l.map Item.arg) = cur := by
  induction l with
  | nil => rfl
  | cons a l ih => simp [lastStdout, ih]

theorem plainStage_WF (seg : List Str) (h : ∀ tok ∈ seg, tok ∉ metaChars) :
    (plainStage seg).WF := by
  cases seg with
  | nil =>
    intro it hit
    simp [plainStage] at hit
  | cons cmd args =>
    intro it hit
    simp only [plainStage, List.mem_map] at hit
    obtain ⟨tok, htok, rfl⟩ := hit
    exact h tok (by simp [htok])

theorem stagesItems_plain (rest : List (List Str)) :
    redirs (stagesItems (rest.map plainStage)) = 0 ∧
    ∀ k, itemsOpens k (stagesItems (rest.map plainStage)) = [] := by
  induction rest with
  | nil => exact ⟨rfl, fun _ => rfl⟩
  | cons seg rest ih =>
    have hx : stagesItems ((seg :: rest).map plainStage)
        = (plainStage seg).items ++ stagesItems (rest.map plainStage) := by
      simp [stagesItems]
    have hs : redirs (plainStage seg).items = 0 ∧ ∀ k, itemsOpens k (plainStage seg).items = [] := by
      cases seg with
      | nil => exact ⟨rfl, fun _ => rfl⟩
      | cons cmd args => exact ⟨redirs_args args, fun k => itemsOpens_args k args⟩
    rw [hx]
    refine ⟨by rw [redirs_append, hs.1, ih.1], fun k => ?_⟩
    rw [itemsOpens_append, hs.2, ih.2]
    rfl

theorem laterTokens_plain (rest : List (List Str)) (h : ∀ seg ∈ rest, seg ≠ []) :
    laterTokens (rest.map plainStage) = rest.flatMap (fun seg => ['|'] :: seg) := by
  induction rest with
  | nil => rfl
  | cons seg rest ih =>
    have h1 := ih (fun s hs => h s (by simp [hs]))
    obtain ⟨cmd, args, rfl⟩ := List.exists_cons_of_ne_nil (h seg (by simp))
    simp only [laterTokens, List.map_cons, List.flatMap_cons] at h1 ⊢
    rw [h1]
    simp [plainStage, itemsTokens_args]

theorem intercalate_pipe (seg0 : List Str) (rest : List (List Str)) :
    List.intercalate [['|']] (seg0 :: rest) = seg0 ++ rest.flatMap (fun seg => ['|'] :: seg) := by
  induction rest generalizing seg0 with
  | nil => simp [List.intercalate]
  | cons seg rest ih =>
    have h := ih seg
    simp only [List.intercalate, List.intersperse, List.flatten_cons, List.flatMap_cons] at h ⊢
    rw [h]
    simp

theorem pipelineTokens_plain (cmd : Str) (args : List Str) (rest : List (List Str))
    (h : ∀ seg ∈ rest, seg ≠ []) :
    pipelineTokens (plainStage (cmd :: args)) (rest.map plainStage)
      = List.intercalate [['|']] ((cmd :: args) :: rest) := by
  rw [intercalate_pipe, pipelineTokens, laterTokens_plain rest h]
  simp [plainStage, itemsTokens_args]

theorem stageSpawns_plain (rest : List (List Str)) :
    ∀ (j k n : Nat) (pt args : List Str), n = j + rest.length + 1 →
      (∀ seg ∈ rest, seg ≠ []) →
      stageSpawns j j k
          { Files0 := (pipeAttr n j).Files0, Files1 := File.Stdout, Files2 := File.Stderr }
          pt (args.map Item.arg) (rest.map plainStage)
        = (List.enumFrom j ((pt ++ args) :: rest)).map (fun p => (p.1, p.2, pipeAttr n p.1)) := by
  induction rest with
  | nil =>
    intro j k n pt args hn _
    subst hn
    simp [stageSpawns, pipeAttr, itemsArgs_args, lastStdin_args, lastStdout_args]
  | cons seg rest ih =>
    intro j k n pt args hn hne
    obtain ⟨cmd, args1, rfl⟩ := List.exists_cons_of_ne_nil (hne seg (by simp))
    have hj : ¬ (j + 1 = n) := by
      simp only [List.length_cons] at hn
      omega
    have := ih (j + 1) (k + redirs (args.map Item.arg)) n [cmd] args1
      (by simp only [List.length_cons] at hn; omega) (fun s hs => hne s (by simp [hs]))
    simp only [List.map_cons, stageSpawns, itemsArgs_args, lastStdin_args, lastStdout_args,
      List.enumFrom_cons]
    have hf : (pipeAttr n (j + 1)).Files0 = File.pipeRead j := by simp [pipeAttr]
    rw [hf] at this
    rw [show (plainStage (cmd :: args1)).cmd = cmd from rfl,
      show (plainStage (cmd :: args1)).items = args1.map Item.arg from rfl, this]
    simp [pipeAttr, hj, List.enumFrom_cons]

theorem reaperRuns_of_reapers (env : Env) (tr : List Event) (n : Nat)
    (h : reapers tr = (List.range n).map (fun i => (i, File.pipeWrite i))) :
    reaperRuns env tr = (List.range n).map (fun i =>
      [Event.wait i (env.wait i)] ++
      (if (env.wait i).isNone then [Event.stderr "Reaping process: ".toList] else []) ++
      [Event.close (File.pipeWrite i)]) := by
  unfold reaperRuns
  rw [h, List.map_map]
  apply List.map_congr_left
  intro i _
  simp only [Function.comp, reaper]
  cases env.wait i <;> rfl

/-- Claim C5: for a token sequence `seg_1 | seg_2 | ... | seg_n` of non-empty
segments of plain tokens, if the `n` resolutions, `n - 1` pipe creations and
`n` spawns succeed, `processCmd` returns after starting exactly `n` processes in
order, process `i` (from 0) with argv `seg_i`, stdin the interpreter's for
`i = 0` and the read end of pipe `i - 1` otherwise, stdout the interpreter's
for `i = n - 1` and the write end of pipe `i` otherwise; processes `0 .. n-2`
are each handed to a reaper goroutine, which waits for the process (reporting
a wait error with `"Reaping process: "`) and then closes that write end, and
the main control flow waits for process `n - 1` only. -/
theorem processCmd_plain_pipeline (env : Env) (v : Int) (segs : List (List Str))
    (hne : segs ≠ [])
    (hseg : ∀ seg ∈ segs, seg ≠ [] ∧ ∀ tok ∈ seg, tok ∉ metaChars)
    (hlook : ∀ k, k < segs.length → (env.lookPath k).isSome = true)
    (hpipe : ∀ k, k + 1 < segs.length → env.pipe k = true)
    (hstart : ∀ k, k < segs.length → env.startProcess k = true) :
    ∃ tr, processCmd env v (List.intercalate [['|']] segs)
        = .returned (ExitCode (env.wait (segs.length - 1))) tr ∧
      spawns tr = segs.enum.map (fun p => (p.1, p.2, pipeAttr segs.length p.1)) ∧
      reapers tr = (List.range (segs.length - 1)).map (fun i => (i, File.pipeWrite i)) ∧
      waits tr = [segs.length - 1] ∧
      opens tr = [] ∧
      reaperRuns env tr = (List.range (segs.length - 1)).map (fun i =>
        [Event.wait i (env.wait i)] ++
        (if (env.wait i).isNone then [Event.stderr "Reaping process: ".toList] else []) ++
        [Event.close (File.pipeWrite i)]) := by
  obtain ⟨seg0, rest, rfl⟩ := List.exists_cons_of_ne_nil hne
  obtain ⟨cmd, args, rfl⟩ := List.exists_cons_of_ne_nil (hseg seg0 (by simp)).1
  have hrest : ∀ seg ∈ rest, seg ≠ [] := fun s hs => (hseg s (by simp [hs])).1
  obtain ⟨path, hpath⟩ := Option.isSome_iff_exists.1 (hlook 0 (by simp))
  have hrun := processCmd_pipelineTokens env v (plainStage (cmd :: args)) (rest.map plainStage)
    (plainStage_WF _ (hseg _ (by simp)).2)
    (by
      intro s hs
      obtain ⟨seg, hseg', rfl⟩ := List.mem_map.1 hs
      exact plainStage_WF seg (hseg seg (by simp [hseg'])).2)
  rw [pipelineTokens_plain cmd args rest hrest] at hrun
  rw [hpath] at hrun
  rw [show (plainStage (cmd :: args)).items = args.map Item.arg from rfl] at hrun
  dsimp only at hrun
  rw [show (plainStage (cmd :: args)).cmd = cmd from rfl] at hrun
  obtain ⟨tr, h1, h2, h3, h4, h5⟩ := runStages_ok env (rest.map plainStage)
    (args.map Item.arg) (initState v cmd path)
    (by
      intro k hk
      rw [redirs_append, (stagesItems_plain rest).1, redirs_args] at hk
      simp [initState] at hk)
    (by
      intro k hk
      exact hpipe k (by simpa [initState] using hk))
    (by
      intro k hk
      exact hstart k (by simpa [initState] using hk))
    (by
      intro k hk
      exact hlook k (by simp only [initState, List.length_map] at hk; simp; omega))
  have hreap : reapers ((initState v cmd path).trace ++ tr)
      = (List.range (((cmd :: args) :: rest).length - 1)).map (fun i => (i, File.pipeWrite i)) := by
    rw [reapers_append, h3]
    simp [initState, reapers]
  refine ⟨(initState v cmd path).trace ++ tr, ?_, ?_, hreap, ?_, ?_,
    reaperRuns_of_reapers env _ _ hreap⟩
  · rw [hrun, h1]
    simp [initState]
  · rw [spawns_append, h2]
    have := stageSpawns_plain rest 0 0 (rest.length + 1) [cmd] args (by simp) hrest
    simp only [initState, spawns, List.nil_append]
    rw [show (pipeAttr (rest.length + 1) 0).Files0 = File.Stdin from rfl] at this
    rw [this]
    simp [List.enum]
  · rw [waits_append, h4]
    simp [initState, waits]
  · rw [opens_append, h5, itemsOpens_append, (stagesItems_plain rest).2, itemsOpens_args]
    simp [initState, opens]

/-- Witness of C5 on `a | b | c`: three processes are started, and the reapers
of `a` and `b` wait for them and close the write ends of pipes 0 and 1. -/
theorem processCmd_plain_pipeline_witness :
    ∃ tr, processCmd (envScript [some "/bin/a".toList, some "/bin/b".toList, some "/bin/c".toList] [] (fun _ => 0)) 0
          (List.intercalate [['|']] [["a".toList], ["b".toList], ["c".toList]])
        = .returned (ExitCode ((envScript [some "/bin/a".toList, some "/bin/b".toList, some "/bin/c".toList] [] (fun _ => 0)).wait
            ([["a".toList], ["b".toList], ["c".toList]].length - 1))) tr ∧
      spawns tr = [["a".toList], ["b".toList], ["c".toList]].enum.map
        (fun p => (p.1, p.2, pipeAttr [["a".toList], ["b".toList], ["c".toList]].length p.1)) ∧
      reapers tr = (List.range ([["a".toList], ["b".toList], ["c".toList]].length - 1)).map
        (fun i => (i, File.pipeWrite i)) ∧
      waits tr = [[["a".toList], ["b".toList], ["c".toList]].length - 1] ∧
      opens tr = [] ∧
      reaperRuns (envScript [some "/bin/a".toList, some "/bin/b".toList, some "/bin/c".toList]
          [] (fun _ => 0)) tr
        = [[Event.wait 0 (some 0), Event.close (File.pipeWrite 0)],
           [Event.wait 1 (some 0), Event.close (File.pipeWrite 1)]] :=
  processCmd_plain_pipeline (envScript [some "/bin/a".toList, some "/bin/b".toList, some "/bin/c".toList] [] (fun _ => 0)) 0
    [["a".toList], ["b".toList], ["c".toList]] (by decide) (by decide)
    (by decide) (fun _ _ => rfl) (fun _ _ => rfl)

/-! ## A resolution failure in the middle of a pipeline -/

theorem runStages_resolve_fail (env : Env) (sN : Stage) (post : List Stage) (pre : List Stage) :
    ∀ (items : List Item) (st : State),
      (∀ k, k < st.nOpen + redirs (items ++ stagesItems pre) →
        env.openFile k = true) →
      (∀ k, k < st.nPipe + pre.length + 1 → env.pipe k = true) →
      (∀ k, k < st.nStart + pre.length + 1 →
        env.startProcess k = true) →
      (∀ k, k < st.nLookPath + pre.length → (env.lookPath k).isSome = true) →
      env.lookPath (st.nLookPath + pre.length) = none →
      ∃ tr, runStages env items (pre ++ sN :: post) st
          = .returned st.lastExitCode (st.trace ++ tr) ∧
        (spawns tr).map (fun s => (s.1, s.2.1))
          = List.enumFrom st.nStart ((st.processedTokens ++ itemsArgs items) :: pre.map Stage.argv) ∧
        reapers tr = (List.range (pre.length + 1)).map
          (fun i => (st.nStart + i, File.pipeWrite (st.nPipe + i))) ∧
        waits tr = [] ∧
        diagnostics tr = [msgResolving] := by
  induction pre with
  | nil =>
    intro items st hopen hpipe hstart _ hfail
    have hf : env.lookPath st.nLookPath = none := by
      simpa using hfail
    refine ⟨(itemsOpens st.nOpen items).map openEvent ++
      [Event.pipe (some (File.pipeRead st.nPipe, File.pipeWrite st.nPipe)),
       Event.startProcess st.path (st.processedTokens ++ itemsArgs items)
         { Files0 := lastStdin st.nOpen st.attrs.Files0 items, Files1 := File.pipeWrite st.nPipe,
           Files2 := st.attrs.Files2 } (some st.nStart),
       Event.go st.nStart (File.pipeWrite st.nPipe),
       Event.lookPath sN.cmd none, Event.stderr msgResolving] ++
      (itemsState items st).deferred.map Event.close,
      ?_, ?_, ?_, ?_, ?_⟩
    · simp only [List.nil_append, runStages,
        applyItems_ok env items st (by simpa [stagesItems] using hopen)]
      rw [spawnPiped_ok env _ (by simpa [itemsState] using hpipe st.nPipe (by simp))
        (by simpa [itemsState] using hstart st.nStart (by simp))]
      simp [nextStage, hf, State.ret, pipedState, itemsState, List.append_assoc]
    · simp only [spawns_append, spawns_openEvent, spawns_close, spawns]
      simp
    · simp only [reapers_append, reapers_openEvent, reapers_close, reapers]
      simp [List.range_succ]
    · simp only [waits_append, waits_openEvent, waits_close, waits]
      simp
    · simp only [diagnostics_append, diagnostics_openEvent, diagnostics_close, diagnostics]
      simp
  | cons s pre ih =>
    intro items st hopen hpipe hstart hlook hfail
    have hred : redirs (items ++ stagesItems (s :: pre))
        = redirs items + redirs (s.items ++ stagesItems pre) := by
      simp [stagesItems, redirs_append]
    obtain ⟨path, hpath⟩ := Option.isSome_iff_exists.1
      (hlook st.nLookPath (by simp))
    rw [List.cons_append, runStages_cons_ok env items s (pre ++ sN :: post) st path
      (fun k hk => hopen k (by rw [hred]; omega))
      (hpipe _ (by omega)) (hstart _ (by omega)) hpath]
    obtain ⟨tr, h1, h2, h3, h4, h5⟩ := ih s.items
      (resolvedState s.cmd path (pipedState (itemsState items st)))
      (fun k hk => hopen k (by
        rw [hred]
        simpa [resolvedState, pipedState, itemsState, Nat.add_assoc] using hk))
      (fun k hk => hpipe k (by
        simp only [resolvedState, pipedState, itemsState] at hk
        simp only [List.length_cons]
        omega))
      (fun k hk => hstart k (by
        simp only [resolvedState, pipedState, itemsState] at hk
        simp only [List.length_cons]
        omega))
      (fun k hk => hlook k (by
        simp only [resolvedState, pipedState, itemsState] at hk
        simp only [List.length_cons]
        omega))
      (by
        simp only [resolvedState, pipedState, itemsState]
        rw [← hfail]
        simp only [List.length_cons]
        congr 1
        omega)
    refine ⟨(itemsOpens st.nOpen items).map openEvent ++
      [Event.pipe (some (File.pipeRead st.nPipe, File.pipeWrite st.nPipe)),
       Event.startProcess st.path (st.processedTokens ++ itemsArgs items)
         { Files0 := lastStdin st.nOpen st.attrs.Files0 items, Files1 := File.pipeWrite st.nPipe,
           Files2 := st.attrs.Files2 } (some st.nStart),
       Event.go st.nStart (File.pipeWrite st.nPipe),
       Event.lookPath s.cmd (some path)] ++ tr, ?_, ?_, ?_, ?_, ?_⟩
    · rw [h1]
      simp [resolvedState, pipedState, itemsState, List.append_assoc]
    · simp only [spawns_append, spawns_openEvent, spawns, List.map_append, List.map_cons,
        List.map_nil, h2, List.enumFrom_cons]
      simp [resolvedState, pipedState, itemsState, Stage.argv]
    · simp only [reapers_append, reapers_openEvent, h3, reapers, List.length_cons]
      rw [range_succ_map_cons (fun i => (st.nStart + i, File.pipeWrite (st.nPipe + i)))]
      simp [resolvedState, pipedState, itemsState, Nat.add_assoc, Nat.add_comm 1]
    · simp [waits_append, waits_openEvent, h4, waits]
    · simp [diagnostics_append, diagnostics_openEvent, h5, diagnostics]

/-- Claim C6: in a well-formed pipeline whose first failing step is the
resolution of the executable of stage `N` (the stages before it, `done`, being
resolved, redirected, piped and spawned with success), `processCmd` returns
normally, leaves `lastExitCode` alone, has started exactly the stages of
`done`, in order and each handed to a reaper goroutine (which waits for the
process and then closes the write end of its pipe), has started and waited for
nothing else, and has written the one diagnostic `"Resolving binary: "`. -/
theorem processCmd_resolution_failure (env : Env) (v : Int) (done : List Stage) (sN : Stage)
    (post : List Stage)
    (hwf : ∀ s ∈ done ++ sN :: post, s.WF)
    (hlook : ∀ k, k < done.length → (env.lookPath k).isSome = true)
    (hfail : env.lookPath done.length = none)
    (hopen : ∀ k, k < redirs (stagesItems done) → env.openFile k = true)
    (hpipe : ∀ k, k < done.length → env.pipe k = true)
    (hstart : ∀ k, k < done.length → env.startProcess k = true) :
    ∃ tr, processCmd env v (stagesTokens (done ++ sN :: post)) = .returned v tr ∧
      (spawns tr).map (fun s => (s.1, s.2.1)) = (done.map Stage.argv).enum ∧
      reapers tr = (List.range done.length).map (fun i => (i, File.pipeWrite i)) ∧
      waits tr = [] ∧
      diagnostics tr = ["Resolving binary: ".toList] ∧
      reaperRuns env tr = (List.range done.length).map (fun i =>
        [Event.wait i (env.wait i)] ++
        (if (env.wait i).isNone then [Event.stderr "Reaping process: ".toList] else []) ++
        [Event.close (File.pipeWrite i)]) := by
  cases done with
  | nil =>
    refine ⟨[Event.lookPath sN.cmd none, Event.stderr msgResolving], ?_, rfl, rfl, rfl, rfl,
      rfl⟩
    simp only [List.nil_append, stagesTokens]
    rw [processCmd_pipelineTokens env v sN post (hwf sN (by simp))
      (fun s hs => hwf s (by simp [hs]))]
    simp only [List.length_nil] at hfail
    rw [hfail]
  | cons first pre =>
    obtain ⟨path, hpath⟩ := Option.isSome_iff_exists.1 (hlook 0 (by simp))
    have hrun := processCmd_pipelineTokens env v first (pre ++ sN :: post)
      (hwf first (by simp)) (fun s hs => hwf s (by simp only [List.cons_append, List.mem_cons]; exact Or.inr hs))
    rw [hpath] at hrun
    dsimp only at hrun
    obtain ⟨tr, h1, h2, h3, h4, h5⟩ := runStages_resolve_fail env sN post pre first.items
      (initState v first.cmd path)
      (fun k hk => hopen k (by simpa [initState, stagesItems] using hk))
      (fun k hk => hpipe k (by simpa [initState] using hk))
      (fun k hk => hstart k (by simpa [initState] using hk))
      (fun k hk => hlook k (by simp only [initState] at hk; simp only [List.length_cons]; omega))
      (by
        rw [← hfail]
        simp only [initState, List.length_cons]
        congr 1
        omega)
    have hreap : reapers ((initState v first.cmd path).trace ++ tr)
        = (List.range (first :: pre).length).map (fun i => (i, File.pipeWrite i)) := by
      rw [reapers_append, h3]
      simp [initState, reapers]
    refine ⟨(initState v first.cmd path).trace ++ tr, ?_, ?_, hreap, ?_, ?_,
      reaperRuns_of_reapers env _ _ hreap⟩
    · simp only [List.cons_append, stagesTokens]
      rw [hrun, h1]
      rfl
    · rw [spawns_append, List.map_append, h2]
      simp [initState, spawns, List.enum, Stage.argv]
    · rw [waits_append, h4]
      simp [initState, waits]
    · rw [diagnostics_append, h5]
      simp [initState, diagnostics, msgResolving]

/-- Witness of C6 on `a | nonexistent | c`: `a` is started and reaped, `c` is
never started. -/
theorem processCmd_resolution_failure_witness :
    ∃ tr, processCmd (envScript [some "/bin/a".toList, none, some "/bin/c".toList] [] (fun _ => 0)) 3
          (stagesTokens ([Stage.mk "a".toList []] ++
            Stage.mk "nonexistent".toList [] :: [Stage.mk "c".toList []]))
        = .returned 3 tr ∧
      (spawns tr).map (fun s => (s.1, s.2.1))
        = ([Stage.mk "a".toList []].map Stage.argv).enum ∧
      reapers tr = (List.range [Stage.mk "a".toList []].length).map
        (fun i => (i, File.pipeWrite i)) ∧
      waits tr = [] ∧
      diagnostics tr = ["Resolving binary: ".toList] ∧
      reaperRuns (envScript [some "/bin/a".toList, none, some "/bin/c".toList] [] (fun _ => 0)) tr
        = [[Event.wait 0 (some 0), Event.close (File.pipeWrite 0)]] :=
  processCmd_resolution_failure (envScript [some "/bin/a".toList, none, some "/bin/c".toList] [] (fun _ => 0)) 3
    [Stage.mk "a".toList []] (Stage.mk "nonexistent".toList []) [Stage.mk "c".toList []]
    (by decide) (by decide) (by decide) (fun _ _ => rfl) (fun _ _ => rfl)
    (fun _ _ => rfl)

/-! ## Tokenizer: characters, empty lines and the interpreter's state -/

theorem fieldsAux_flatten (s cur : Str) :
    (fieldsAux s cur).flatten = cur ++ s.filter (fun c => !isSpace c) := by
  induction s generalizing cur with
  | nil => cases cur <;> simp [fieldsAux]
  | cons c cs ih =>
    by_cases hc : isSpace c = true
    · cases cur with
      | nil => simp [fieldsAux, hc, ih]
      | cons d ds => simp [fieldsAux, hc, ih]
    · simp [fieldsAux, hc, ih]

theorem fieldsAux_mem (s cur : Str) (hcur : ∀ c ∈ cur, isSpace c = false) :
    ∀ w ∈ fieldsAux s cur, w ≠ [] ∧ ∀ c ∈ w, isSpace c = false := by
  induction s generalizing cur with
  | nil =>
    intro w hw
    by_cases h : cur = []
    · simp [fieldsAux, h] at hw
    · simp only [fieldsAux, h, if_false, List.mem_singleton] at hw
      subst hw
      exact ⟨h, hcur⟩
  | cons c cs ih =>
    intro w hw
    by_cases hc : isSpace c = true
    · by_cases h : cur = []
      · simp only [fieldsAux, hc, h, if_true] at hw
        exact ih [] (by simp) w hw
      · simp only [fieldsAux, hc, h, if_true, if_false, List.mem_cons] at hw
        rcases hw with rfl | hw
        · exact ⟨h, hcur⟩
        · exact ih [] (by simp) w hw
    · simp only [fieldsAux, hc, if_false, Bool.false_eq_true] at hw
      refine ih (cur ++ [c]) ?_ w hw
      intro d hd
      simp only [List.mem_append, List.mem_singleton] at hd
      rcases hd with hd | rfl
      · exact hcur d hd
      · simpa using hc

theorem fieldsAux_eq_nil (s cur : Str) :
    fieldsAux s cur = [] ↔ cur = [] ∧ ∀ c ∈ s, isSpace c = true := by
  induction s generalizing cur with
  | nil => by_cases h : cur = [] <;> simp [fieldsAux, h]
  | cons c cs ih =>
    by_cases hc : isSpace c = true
    · by_cases h : cur = []
      · simp [fieldsAux, hc, h, ih]
      · simp [fieldsAux, hc, h]
    · simp [fieldsAux, hc, ih]

theorem tokenizeMetaChars_flatten (w : Str) : (tokenizeMetaChars w).flatten = w := by
  cases w with
  | nil => rfl
  | cons c rest =>
    rw [tokenizeMetaChars_cons]
    split_ifs <;> simp_all

theorem tokenizeMetaChars_ne_nil (w : Str) : tokenizeMetaChars w ≠ [] := by
  cases w with
  | nil => decide
  | cons c rest =>
    rw [tokenizeMetaChars_cons]
    split_ifs <;> simp

theorem tokenizeMetaChars_mem (w : Str) (hne : w ≠ []) (hs : ∀ c ∈ w, isSpace c = false) :
    ∀ t ∈ tokenizeMetaChars w, t ≠ [] ∧ ∀ c ∈ t, isSpace c = false := by
  obtain ⟨c, rest, rfl⟩ := List.exists_cons_of_ne_nil hne
  intro t ht
  rw [tokenizeMetaChars_cons] at ht
  have hc : isSpace c = false := hs c (by simp)
  have hrest : ∀ d ∈ rest, isSpace d = false := fun d hd => hs d (by simp [hd])
  split_ifs at ht with h1 h2
  · simp only [List.mem_singleton] at ht
    subst ht
    exact ⟨by simp, by simpa using hc⟩
  · simp only [List.mem_cons, List.mem_singleton, List.not_mem_nil, or_false] at ht
    rcases ht with rfl | rfl
    · exact ⟨by simp, by simpa using hc⟩
    · exact ⟨h2, hrest⟩
  · simp only [List.mem_singleton] at ht
    subst ht
    exact ⟨by simp, hs⟩

theorem tokenizeSplit_flatten (L : Str) :
    (tokenizeSplit L).flatten = L.filter (fun c => !isSpace c) := by
  rw [tokenizeSplit_eq]
  have h : ∀ ws : List Str, (ws.flatMap tokenizeMetaChars).flatten = ws.flatten := by
    intro ws
    induction ws with
    | nil => rfl
    | cons w ws ih => simp [List.flatMap_cons, tokenizeMetaChars_flatten, ih]
  rw [h, Fields, fieldsAux_flatten]
  rfl

theorem tokenizeSplit_mem (L : Str) :
    ∀ t ∈ tokenizeSplit L, t ≠ [] ∧ ∀ c ∈ t, isSpace c = false := by
  intro t ht
  rw [tokenizeSplit_eq, List.mem_flatMap] at ht
  obtain ⟨w, hw, ht⟩ := ht
  obtain ⟨hne, hs⟩ := fieldsAux_mem L [] (by simp) w hw
  exact tokenizeMetaChars_mem w hne hs t ht

theorem digitChar_not_space : ∀ d : Nat, d < 10 → isSpace (Nat.digitChar d) = false := by
  decide

theorem toDigitsCore_not_space (fuel n : Nat) (acc : List Char)
    (h : ∀ c ∈ acc, isSpace c = false) :
    ∀ c ∈ Nat.toDigitsCore 10 fuel n acc, isSpace c = false := by
  induction fuel generalizing n acc with
  | zero => simpa [Nat.toDigitsCore] using h
  | succ fuel ih =>
    unfold Nat.toDigitsCore
    have h2 : ∀ c ∈ Nat.digitChar (n % 10) :: acc, isSpace c = false := by
      intro c hc
      simp only [List.mem_cons] at hc
      rcases hc with rfl | hc
      · exact digitChar_not_space _ (Nat.mod_lt _ (by decide))
      · exact h c hc
    dsimp only
    split_ifs
    · exact h2
    · exact ih _ _ h2

theorem toDigitsCore_ne_nil (fuel n : Nat) (acc : List Char) (h : acc ≠ [] ∨ 0 < fuel) :
    Nat.toDigitsCore 10 fuel n acc ≠ [] := by
  induction fuel generalizing n acc with
  | zero =>
    rcases h with h | h
    · simpa [Nat.toDigitsCore] using h
    · exact absurd h (by decide)
  | succ fuel ih =>
    unfold Nat.toDigitsCore
    dsimp only
    split_ifs
    · simp
    · exact ih _ _ (Or.inl (by simp))

theorem Itoa_token (E : Int) : Itoa E ≠ [] ∧ ∀ c ∈ Itoa E, isSpace c = false := by
  cases E with
  | ofNat n =>
    exact ⟨toDigitsCore_ne_nil _ _ _ (Or.inr (Nat.succ_pos _)),
      toDigitsCore_not_space _ _ _ (by simp)⟩
  | negSucc n =>
    refine ⟨by simp [Itoa], ?_⟩
    intro c hc
    simp only [Itoa, List.mem_cons] at hc
    rcases hc with rfl | hc
    · decide
    · exact toDigitsCore_not_space _ _ _ (by simp) c hc

theorem map_substitute_of_not_mem (E : Int) (toks : List Str) (h : exitCodeVar ∉ toks) :
    toks.map (substituteExitCode E) = toks := by
  induction toks with
  | nil => rfl
  | cons t toks ih =>
    have h1 : t ≠ exitCodeVar := fun e => h (by simp [e])
    have h2 : exitCodeVar ∉ toks := fun e => h (by simp [e])
    simp [substituteExitCode, h1, ih h2]

/-- Claim C19: the tokens of a line before variable substitution, concatenated,
are the line with its whitespace characters removed; the same holds for the
result of `tokenize` when no token is `"$?"`; and every token `tokenize`
returns is non-empty and free of whitespace. -/
theorem tokenize_preserves_characters (E : Int) (L : Str) :
    (tokenizeSplit L).flatten = L.filter (fun c => !isSpace c) ∧
    (exitCodeVar ∉ tokenizeSplit L →
      (tokenize E L).flatten = L.filter (fun c => !isSpace c)) ∧
    (∀ t ∈ tokenize E L, t ≠ [] ∧ ∀ c ∈ t, isSpace c = false) := by
  refine ⟨tokenizeSplit_flatten L, ?_, ?_⟩
  · intro h
    unfold tokenize
    rw [expandVars_eq_map, map_substitute_of_not_mem E _ h, tokenizeSplit_flatten]
  · intro t ht
    unfold tokenize at ht
    rw [expandVars_eq_map, List.mem_map] at ht
    obtain ⟨u, hu, rfl⟩ := ht
    unfold substituteExitCode
    split_ifs
    · exact Itoa_token E
    · exact tokenizeSplit_mem L u hu

/-- Witness of C19 on the line `" cat <in  |wc "`. -/
theorem tokenize_preserves_characters_witness :
    (tokenize 0 " cat <in  |wc ".toList).flatten = "cat<in|wc".toList :=
  (tokenize_preserves_characters 0 " cat <in  |wc ".toList).2.1 (by decide)

theorem tokenize_eq_nil_iff (E : Int) (L : Str) :
    tokenize E L = [] ↔ ∀ c ∈ L, isSpace c = true := by
  unfold tokenize
  rw [expandVars_eq_map, List.map_eq_nil_iff, tokenizeSplit_eq]
  constructor
  · intro h
    have hF : Fields L = [] := by
      cases hf : Fields L with
      | nil => rfl
      | cons w ws =>
        rw [hf, List.flatMap_cons] at h
        exact absurd (List.append_eq_nil.1 h).1 (tokenizeMetaChars_ne_nil w)
    exact ((fieldsAux_eq_nil L []).1 hF).2
  · intro h
    have hF : Fields L = [] := (fieldsAux_eq_nil L []).2 ⟨rfl, h⟩
    rw [hF]
    rfl

/-- Claim C14: `tokenize L` is empty exactly when `L` holds no non-whitespace
character (in particular for the empty line); the read loop calls `processCmd`
exactly when the token sequence is non-empty; so on a blank line no command is
executed, nothing happens and `lastExitCode` keeps its value. -/
theorem tokenize_empty_iff_blank (env : Env) (E : Int) (L : Str) :
    (tokenize E L = [] ↔ ∀ c ∈ L, isSpace c = true) ∧
    tokenize E [] = [] ∧
    mainStep env E L
      = (if tokenize E L = [] then none else some (processCmd env E (tokenize E L))) ∧
    ((∀ c ∈ L, isSpace c = true) →
      mainStep env E L = none ∧ mainIteration env E L = .returned E []) := by
  have hstep : mainStep env E L
      = (if tokenize E L = [] then none else some (processCmd env E (tokenize E L))) := by
    unfold mainStep
    cases h : tokenize E L <;> simp
  refine ⟨tokenize_eq_nil_iff E L, rfl, hstep, ?_⟩
  intro h
  have hnil := (tokenize_eq_nil_iff E L).2 h
  have hnone : mainStep env E L = none := by rw [hstep, if_pos hnil]
  exact ⟨hnone, by rw [mainIteration, hnone]⟩

/-- Witness of C14 on a line of two spaces and a tab, with last exit code 3. -/
theorem tokenize_empty_iff_blank_witness :
    mainStep (envScript [] [] (fun _ => 0)) 3 "  \t".toList = none ∧
    mainIteration (envScript [] [] (fun _ => 0)) 3 "  \t".toList = .returned 3 [] :=
  (tokenize_empty_iff_blank (envScript [] [] (fun _ => 0)) 3 "  \t".toList).2.2.2 (by decide)

theorem tokenizeSplitW_eq (w : World) (fields tokens : List Str) :
    tokenizeSplitW w fields tokens
      = (fields.foldl (fun tokens tok => tokens ++ tokenizeMetaChars tok) tokens, w) := by
  induction fields generalizing tokens with
  | nil => rfl
  | cons f fields ih => simp [tokenizeSplitW, ih]

theorem expandVarsW_eq (n i : Nat) (tokens : List Str) (w : World) :
    expandVarsW n i tokens w
      = ((List.range' i n).foldl
          (fun toks i =>
            if toks[i]? = some exitCodeVar then toks.set i (Itoa w.lastExitCode) else toks)
          tokens, w) := by
  induction n generalizing i tokens with
  | zero => rfl
  | succ n ih =>
    unfold expandVarsW
    rw [List.range'_succ, List.foldl_cons]
    split_ifs <;> rw [ih]

theorem tokenizeW_eq (w : World) (L : Str) : tokenizeW w L = (tokenize w.lastExitCode L, w) := by
  unfold tokenizeW
  simp only [tokenizeSplitW_eq, expandVarsW_eq]
  rw [← List.range_eq_range']
  rfl

/-- Claim C17: run as a state transformer of the interpreter, `tokenize`
returns the state it was given (the global `lastExitCode` and the effects so
far are unchanged), and its tokens are a function of the line and of
`lastExitCode` alone: two runs on the same line with the same `lastExitCode`
give identical tokens whatever else differs. -/
theorem tokenize_deterministic (E : Int) (L : Str) (tr tr2 : List Event) :
    (tokenizeW ⟨E, tr⟩ L).2 = ⟨E, tr⟩ ∧
    (tokenizeW ⟨E, tr⟩ L).1 = tokenize E L ∧
    (tokenizeW ⟨E, tr⟩ L).1 = (tokenizeW ⟨E, tr2⟩ L).1 := by
  simp [tokenizeW_eq]

/-! ## A line without operators -/

theorem processRest_plain (env : Env) (args : List Str) (st : State)
    (h : ∀ t ∈ args, t ∉ metaChars) :
    processRest env args st
      = spawnLast env { st with processedTokens := st.processedTokens ++ args } := by
  induction args generalizing st with
  | nil => simp [processRest_nil]
  | cons a args ih =>
    rw [processRest_arg env a args st (h a (by simp)), ih _ (fun t ht => h t (by simp [ht]))]
    simp

/-- Claim C13, amended: on a non-empty token sequence without operator tokens
whose first token resolves, `processCmd` opens no file, creates no pipe, and
calls `os.StartProcess` exactly once, with the whole token sequence as argv and
the interpreter's own stdin, stdout and stderr as the three bindings; when that
call succeeds exactly one process is spawned and waited for, and when it fails
no process is spawned, the failure is reported with `"Forking process: "` and
`lastExitCode` is unchanged. -/
theorem processCmd_no_operators (env : Env) (v : Int) (tok0 : Str) (args : List Str)
    (path : Str) (hplain : ∀ t ∈ tok0 :: args, t ∉ metaChars)
    (hlook : env.lookPath 0 = some path) :
    processCmd env v (tok0 :: args) =
      if env.startProcess 0 = true then
        .returned (ExitCode (env.wait 0))
          ([Event.lookPath tok0 (some path),
            Event.startProcess path (tok0 :: args)
              { Files0 := File.Stdin, Files1 := File.Stdout, Files2 := File.Stderr } (some 0),
            Event.wait 0 (env.wait 0)] ++
           (if (env.wait 0).isNone then [Event.stderr msgReaping] else []))
      else
        .returned v
          [Event.lookPath tok0 (some path),
           Event.startProcess path (tok0 :: args)
             { Files0 := File.Stdin, Files1 := File.Stdout, Files2 := File.Stderr } none,
           Event.stderr msgForking] := by
  rw [processCmd_cons, hlook]
  dsimp only
  rw [processRest_plain env args _ (fun t ht => hplain t (by simp [ht]))]
  unfold spawnLast
  by_cases hs : env.startProcess 0 = true
  · simp [initState, hs, State.ret]
  · simp [initState, hs, State.ret]

/-- Witness of the amended C13 on the line `ls`: one process with argv `["ls"]`
and the three inherited streams. -/
theorem processCmd_no_operators_witness :
    processCmd (envScript [some "/bin/ls".toList] [] (fun _ => 0)) 0 ["ls".toList] =
      .returned 0
        [Event.lookPath "ls".toList (some "/bin/ls".toList),
         Event.startProcess "/bin/ls".toList ["ls".toList]
           { Files0 := File.Stdin, Files1 := File.Stdout, Files2 := File.Stderr } (some 0),
         Event.wait 0 (some 0)] :=
  processCmd_no_operators (envScript [some "/bin/ls".toList] [] (fun _ => 0)) 0 "ls".toList []
    "/bin/ls".toList (by decide) rfl

/-! ## Files opened for redirection are closed on return -/

theorem closes_append (a b : List Event) : closes (a ++ b) = closes a ++ closes b := by
  induction a with
  | nil => rfl
  | cons e a ih => cases e <;> simp [closes, ih]

theorem closes_close (fs : List File) : closes (fs.map Event.close) = fs := by
  induction fs with
  | nil => rfl
  | cons f fs ih => simp [closes, ih]

/-- Loop invariant: nothing is closed yet, the pending deferred closes are the
handles opened so far, last first, and these handles are distinct files
numbered below `nOpen`. -/
theorem closeInv_ret (st : State)
    (h : closes st.trace = [] ∧
      st.deferred = ((opens st.trace).map (fun o => o.2.2)).reverse ∧
      (∀ o ∈ opens st.trace, ∃ k name flags, o.2.2 = File.fd k name flags ∧ k < st.nOpen) ∧
      ((opens st.trace).map (fun o => o.2.2)).Nodup)
    (e : Int) (tr : List Event) (hret : st.ret = .returned e tr) :
    closes tr = ((opens tr).map (fun o => o.2.2)).reverse ∧
      ((opens tr).map (fun o => o.2.2)).Nodup ∧
      (∀ o ∈ opens tr, ∃ k name flags, o.2.2 = File.fd k name flags) := by
  obtain ⟨h1, h2, h3, h4⟩ := h
  simp only [State.ret, Outcome.returned.injEq] at hret
  obtain ⟨_, rfl⟩ := hret
  rw [closes_append, closes_close, opens_append, opens_close, h1, List.append_nil,
    List.nil_append]
  refine ⟨h2, h4, ?_⟩
  intro o ho
  obtain ⟨k, name, flags, hk, _⟩ := h3 o ho
  exact ⟨k, name, flags, hk⟩

theorem closeInv_extend (st st1 : State) (tr : List Event)
    (h : closes st.trace = [] ∧
      st.deferred = ((opens st.trace).map (fun o => o.2.2)).reverse ∧
      (∀ o ∈ opens st.trace, ∃ k name flags, o.2.2 = File.fd k name flags ∧ k < st.nOpen) ∧
      ((opens st.trace).map (fun o => o.2.2)).Nodup)
    (ht : st1.trace = st.trace ++ tr) (hd : st1.deferred = st.deferred)
    (hn : st.nOpen ≤ st1.nOpen) (ho : opens tr = []) (hc : closes tr = []) :
    closes st1.trace = [] ∧
      st1.deferred = ((opens st1.trace).map (fun o => o.2.2)).reverse ∧
      (∀ o ∈ opens st1.trace, ∃ k name flags, o.2.2 = File.fd k name flags ∧ k < st1.nOpen) ∧
      ((opens st1.trace).map (fun o => o.2.2)).Nodup := by
  obtain ⟨h1, h2, h3, h4⟩ := h
  rw [ht, closes_append, opens_append, ho, hc, h1, hd]
  simp only [List.append_nil]
  refine ⟨trivial, h2, ?_, h4⟩
  intro o hmem
  obtain ⟨k, name, flags, hk, hlt⟩ := h3 o hmem
  exact ⟨k, name, flags, hk, by omega⟩

theorem closeInv_open (st st1 : State) (name : Str) (flags : List OpenFlag)
    (h : closes st.trace = [] ∧
      st.deferred = ((opens st.trace).map (fun o => o.2.2)).reverse ∧
      (∀ o ∈ opens st.trace, ∃ k name flags, o.2.2 = File.fd k name flags ∧ k < st.nOpen) ∧
      ((opens st.trace).map (fun o => o.2.2)).Nodup)
    (ht : st1.trace = st.trace ++ [Event.openFile name flags (some (File.fd st.nOpen name flags))])
    (hd : st1.deferred = File.fd st.nOpen name flags :: st.deferred)
    (hn : st1.nOpen = st.nOpen + 1) :
    closes st1.trace = [] ∧
      st1.deferred = ((opens st1.trace).map (fun o => o.2.2)).reverse ∧
      (∀ o ∈ opens st1.trace, ∃ k name flags, o.2.2 = File.fd k name flags ∧ k < st1.nOpen) ∧
      ((opens st1.trace).map (fun o => o.2.2)).Nodup := by
  obtain ⟨h1, h2, h3, h4⟩ := h
  rw [ht, closes_append, opens_append, h1, hd, h2, hn]
  refine ⟨by simp [closes], by simp [opens], ?_, ?_⟩
  · intro o hmem
    simp only [opens, List.mem_append, List.mem_singleton] at hmem
    rcases hmem with hmem | rfl
    · obtain ⟨k, n, f, hk, hlt⟩ := h3 o hmem
      exact ⟨k, n, f, hk, by omega⟩
    · exact ⟨st.nOpen, name, flags, rfl, by omega⟩
  · simp only [opens, List.map_append, List.map_cons, List.map_nil]
    rw [List.nodup_append]
    refine ⟨h4, by simp, ?_⟩
    intro f hf hf2
    simp only [List.mem_singleton] at hf2
    subst hf2
    obtain ⟨o, ho, hfo⟩ := List.mem_map.1 hf
    obtain ⟨k, n, fl, hk, hlt⟩ := h3 o ho
    rw [hk] at hfo
    simp only [File.fd.injEq] at hfo
    omega

theorem closeInv_loop (env : Env) (l : List Str) (st : State)
    (h : closes st.trace = [] ∧
      st.deferred = ((opens st.trace).map (fun o => o.2.2)).reverse ∧
      (∀ o ∈ opens st.trace, ∃ k name flags, o.2.2 = File.fd k name flags ∧ k < st.nOpen) ∧
      ((opens st.trace).map (fun o => o.2.2)).Nodup) :
    ∀ e tr, processRest env l st = .returned e tr →
      closes tr = ((opens tr).map (fun o => o.2.2)).reverse ∧
      ((opens tr).map (fun o => o.2.2)).Nodup ∧
      (∀ o ∈ opens tr, ∃ k name flags, o.2.2 = File.fd k name flags) := by
  refine processRest_invariant env
    (fun st => closes st.trace = [] ∧
      st.deferred = ((opens st.trace).map (fun o => o.2.2)).reverse ∧
      (∀ o ∈ opens st.trace, ∃ k name flags, o.2.2 = File.fd k name flags ∧ k < st.nOpen) ∧
      ((opens st.trace).map (fun o => o.2.2)).Nodup)
    (fun out => ∀ e tr, out = .returned e tr →
      closes tr = ((opens tr).map (fun o => o.2.2)).reverse ∧
      ((opens tr).map (fun o => o.2.2)).Nodup ∧
      (∀ o ∈ opens tr, ∃ k name flags, o.2.2 = File.fd k name flags))
    ?_ ?_ ?_ ?_ ?_ ?_ ?_ l st h
  · intro st _ e tr h
    simp [State.panic] at h
  · intro st hP
    unfold spawnLast
    split_ifs
    · exact closeInv_ret _ (closeInv_extend st _ _ hP (List.append_assoc _ _ _) rfl
        (Nat.le_refl _)
        (by cases env.wait st.nStart <;> simp [opens_append, opens])
        (by cases env.wait st.nStart <;> simp [closes_append, closes]))
    · exact closeInv_ret _ (closeInv_extend st _ _ hP rfl rfl (Nat.le_refl _)
        (by simp [opens]) (by simp [closes]))
  · intro st tok hP
    exact hP
  · intro st name hP
    unfold redirectStdin
    split_ifs
    · refine ⟨fun out h => by simp at h, ?_⟩
      intro st1 h
      simp only [Sum.inr.injEq] at h
      subst h
      exact closeInv_open st _ name _ hP rfl rfl rfl
    · refine ⟨?_, fun st1 h => by simp at h⟩
      intro out h
      simp only [Sum.inl.injEq] at h
      subst h
      exact closeInv_ret _ (closeInv_extend st _ _ hP rfl rfl (Nat.le_succ _)
        (by simp [opens]) (by simp [closes]))
  · intro st name hP
    unfold redirectStdout
    split_ifs
    · refine ⟨fun out h => by simp at h, ?_⟩
      intro st1 h
      simp only [Sum.inr.injEq] at h
      subst h
      exact closeInv_open st _ name _ hP rfl rfl rfl
    · refine ⟨?_, fun st1 h => by simp at h⟩
      intro out h
      simp only [Sum.inl.injEq] at h
      subst h
      exact closeInv_ret _ (closeInv_extend st _ _ hP rfl rfl (Nat.le_succ _)
        (by simp [opens]) (by simp [closes]))
  · intro st hP
    unfold spawnPiped
    dsimp only
    split_ifs with hs hp hp
    · refine ⟨fun out h => by simp at h, ?_⟩
      intro st1 h
      simp only [Sum.inr.injEq] at h
      subst h
      exact closeInv_extend st _ _ hP (List.append_assoc _ _ _) rfl (Nat.le_refl _)
        (by simp [opens]) (by simp [closes])
    · refine ⟨fun out h => by simp at h, ?_⟩
      intro st1 h
      simp only [Sum.inr.injEq] at h
      subst h
      exact closeInv_extend st _ _ hP (List.append_assoc _ _ _) rfl (Nat.le_refl _)
        (by simp [opens]) (by simp [closes])
    · refine ⟨?_, fun st1 h => by simp at h⟩
      intro out h
      simp only [Sum.inl.injEq] at h
      subst h
      exact closeInv_ret _ (closeInv_extend st _ _ hP (List.append_assoc _ _ _) rfl
        (Nat.le_refl _) (by simp [opens]) (by simp [closes]))
    · refine ⟨?_, fun st1 h => by simp at h⟩
      intro out h
      simp only [Sum.inl.injEq] at h
      subst h
      exact closeInv_ret _ (closeInv_extend st _ _ hP (List.append_assoc _ _ _) rfl
        (Nat.le_refl _) (by simp [opens]) (by simp [closes]))
  · intro st tok hP
    unfold nextStage
    cases env.lookPath st.nLookPath with
    | some path =>
      refine ⟨fun out h => by simp at h, ?_⟩
      intro st1 h
      simp only [Sum.inr.injEq] at h
      subst h
      exact closeInv_extend st _ _ hP rfl rfl (Nat.le_refl _) (by simp [opens])
        (by simp [closes])
    | none =>
      refine ⟨?_, fun st1 h => by simp at h⟩
      intro out h
      simp only [Sum.inl.injEq] at h
      subst h
      exact closeInv_ret _ (closeInv_extend st _ _ hP rfl rfl (Nat.le_refl _)
        (by simp [opens]) (by simp [closes]))

/-- Claim C16: whenever `processCmd` returns (normally or after a resolution,
open, spawn or wait failure), the deferred closes it has run are exactly the
handles of the files it opened for `"<"` and `">"`, last opened first; these
handles are pairwise distinct, so each opened file is closed exactly once and
nothing else is closed; in particular the interpreter's own standard streams
are never closed. -/
theorem processCmd_closes_opened_files (env : Env) (v : Int) (tokens : List Str) (e : Int)
    (tr : List Event) (h : processCmd env v tokens = .returned e tr) :
    closes tr = ((opens tr).map (fun o => o.2.2)).reverse ∧
    (∀ f, (closes tr).count f = if f ∈ (opens tr).map (fun o => o.2.2) then 1 else 0) ∧
    File.Stdin ∉ closes tr ∧ File.Stdout ∉ closes tr ∧ File.Stderr ∉ closes tr := by
  have key : closes tr = ((opens tr).map (fun o => o.2.2)).reverse ∧
      ((opens tr).map (fun o => o.2.2)).Nodup ∧
      (∀ o ∈ opens tr, ∃ k name flags, o.2.2 = File.fd k name flags) := by
    cases tokens with
    | nil => simp [processCmd] at h
    | cons tok0 rest =>
      rw [processCmd_cons] at h
      cases hl : env.lookPath 0 with
      | none =>
        rw [hl] at h
        simp only [Outcome.returned.injEq] at h
        obtain ⟨_, rfl⟩ := h
        simp [closes, opens]
      | some path =>
        rw [hl] at h
        exact closeInv_loop env rest (initState v tok0 path)
          (by simp [initState, closes, opens]) e tr h
  obtain ⟨h1, h2, h3⟩ := key
  have hstd : ∀ f, (∀ k name flags, f ≠ File.fd k name flags) → f ∉ closes tr := by
    intro f hf hmem
    rw [h1, List.mem_reverse, List.mem_map] at hmem
    obtain ⟨o, ho, rfl⟩ := hmem
    obtain ⟨k, name, flags, hk⟩ := h3 o ho
    exact hf k name flags hk
  refine ⟨h1, ?_, hstd _ (by simp), hstd _ (by simp), hstd _ (by simp)⟩
  intro f
  rw [h1, List.count_reverse]
  exact List.count_eq_of_nodup h2

/-- Witness of C16 on `sort < in > out | wc` when the resolution of `wc` fails:
both opened files are closed on the early return. -/
theorem processCmd_closes_opened_files_witness :
    closes (processCmd (envScript [some "/bin/sort".toList, none] [] (fun _ => 0)) 0
        (tokenize 0 "sort < in > out | wc".toList)).trace
      = ((opens (processCmd (envScript [some "/bin/sort".toList, none] [] (fun _ => 0)) 0
        (tokenize 0 "sort < in > out | wc".toList)).trace).map (fun o => o.2.2)).reverse ∧
    (∀ f, (closes (processCmd (envScript [some "/bin/sort".toList, none] [] (fun _ => 0)) 0
        (tokenize 0 "sort < in > out | wc".toList)).trace).count f
      = if f ∈ (opens (processCmd (envScript [some "/bin/sort".toList, none] [] (fun _ => 0)) 0
        (tokenize 0 "sort < in > out | wc".toList)).trace).map (fun o => o.2.2)
        then 1 else 0) ∧
    File.Stdin ∉ closes (processCmd (envScript [some "/bin/sort".toList, none] [] (fun _ => 0)) 0
        (tokenize 0 "sort < in > out | wc".toList)).trace ∧
    File.Stdout ∉ closes (processCmd (envScript [some "/bin/sort".toList, none] [] (fun _ => 0)) 0
        (tokenize 0 "sort < in > out | wc".toList)).trace ∧
    File.Stderr ∉ closes (processCmd (envScript [some "/bin/sort".toList, none] [] (fun _ => 0)) 0
        (tokenize 0 "sort < in > out | wc".toList)).trace :=
  processCmd_closes_opened_files (envScript [some "/bin/sort".toList, none] [] (fun _ => 0)) 0
    (tokenize 0 "sort < in > out | wc".toList) 0 _ (by decide)

/-- Claim C15 fails on the code: on `a | b`, when `os.StartProcess` fails for
the producing stage `a`, `processCmd` returns right after the failure report;
the pipe has been created, but no reaper is launched and no close is issued for
its write end, neither by `processCmd` nor by any reaper. -/
theorem processCmd_pipe_leak_on_spawn_failure :
    processCmd (envStartFail [some "/bin/a".toList, some "/bin/b".toList] [0] (fun _ => 0)) 0
        (tokenize 0 "a | b".toList)
      = .returned 0
          [Event.lookPath "a".toList (some "/bin/a".toList),
           Event.pipe (some (File.pipeRead 0, File.pipeWrite 0)),
           Event.startProcess "/bin/a".toList ["a".toList]
             { Files0 := File.Stdin, Files1 := File.pipeWrite 0, Files2 := File.Stderr } none,
           Event.stderr msgForking] ∧
    reapers (processCmd (envStartFail [some "/bin/a".toList, some "/bin/b".toList] [0]
        (fun _ => 0)) 0 (tokenize 0 "a | b".toList)).trace = [] ∧
    File.pipeWrite 0 ∉ closesIssued
      (envStartFail [some "/bin/a".toList, some "/bin/b".toList] [0] (fun _ => 0))
      (processCmd (envStartFail [some "/bin/a".toList, some "/bin/b".toList] [0]
        (fun _ => 0)) 0 (tokenize 0 "a | b".toList)).trace := by
  decide

/-- Counterexample to C11: on `a | nonexistent` (second resolution failing) and
on `a | b < missing` (the open failing), the stage `a` has been started. -/
theorem processCmd_failure_after_spawn_counterexample :
    spawns (processCmd (envScript [some "/bin/a".toList, none] [] (fun _ => 0)) 0
        (tokenize 0 "a | nonexistent".toList)).trace
      = [(0, ["a".toList],
          { Files0 := File.Stdin, Files1 := File.pipeWrite 0, Files2 := File.Stderr })] ∧
    spawns (processCmd (envScript [some "/bin/a".toList, some "/bin/b".toList] [0]
        (fun _ => 0)) 0 (tokenize 0 "a | b < missing".toList)).trace
      = [(0, ["a".toList],
          { Files0 := File.Stdin, Files1 := File.pipeWrite 0, Files2 := File.Stderr })] := by
  decide

/-! ## Failures after earlier stages have been started -/

theorem spawnPiped_start_ok (env : Env) (st : State) (h : env.startProcess st.nStart = true) :
    spawnPiped env st = .inr (spawnedState env st) := by
  cases hp : env.pipe st.nPipe <;> simp [spawnPiped, h, spawnedState, hp]

theorem runStages_cons_enter (env : Env) (items : List Item) (s : Stage) (later : List Stage)
    (st : State)
    (hopen : ∀ k, k < st.nOpen + redirs items → env.openFile k = true)
    (hstart : env.startProcess st.nStart = true) :
    runStages env items (s :: later) st
      = enterStage env s later (spawnedState env (itemsState items st)) := by
  simp only [runStages, applyItems_ok env items st hopen]
  rw [spawnPiped_start_ok env _ (by simpa [itemsState] using hstart)]
  rfl

theorem spawnedState_trace (env : Env) (items : List Item) (st : State) :
    ∃ tr, (spawnedState env (itemsState items st)).trace = st.trace ++ tr ∧
      (spawns tr).map (fun s => (s.1, s.2.1))
        = [(st.nStart, st.processedTokens ++ itemsArgs items)] ∧
      waits tr = [] := by
  refine ⟨(itemsOpens st.nOpen items).map openEvent ++
      ((if env.pipe st.nPipe then
        [Event.pipe (some (File.pipeRead st.nPipe, File.pipeWrite st.nPipe))]
       else [Event.pipe none, Event.stderr msgPipe]) ++
      [Event.startProcess st.path (st.processedTokens ++ itemsArgs items)
         { Files0 := lastStdin st.nOpen st.attrs.Files0 items
           Files1 := if env.pipe st.nPipe then File.pipeWrite st.nPipe else File.nil
           Files2 := st.attrs.Files2 } (some st.nStart),
       Event.go st.nStart
         (if env.pipe st.nPipe then File.pipeWrite st.nPipe else File.nil)]), ?_, ?_, ?_⟩
  · simp [spawnedState, itemsState, List.append_assoc]
  · cases env.pipe st.nPipe <;> simp [spawns_append, spawns_openEvent, spawns]
  · cases env.pipe st.nPipe <;> simp [waits_append, waits_openEvent, waits]

/-- Through the stages `pre`, every open, spawn and resolution succeeding,
up to the point where the stage after them is to be resolved. -/
theorem runStages_enter (env : Env) (s : Stage) (later : List Stage) (pre : List Stage) :
    ∀ (items : List Item) (st : State),
      (∀ k, k < st.nOpen + redirs (items ++ stagesItems pre) → env.openFile k = true) →
      (∀ k, k < st.nStart + pre.length + 1 → env.startProcess k = true) →
      (∀ k, k < st.nLookPath + pre.length → (env.lookPath k).isSome = true) →
      ∃ st1 tr, runStages env items (pre ++ s :: later) st = enterStage env s later st1 ∧
        st1.trace = st.trace ++ tr ∧
        (spawns tr).map (fun s => (s.1, s.2.1))
          = List.enumFrom st.nStart ((st.processedTokens ++ itemsArgs items) :: pre.map Stage.argv) ∧
        waits tr = [] ∧
        st1.nOpen = st.nOpen + redirs (items ++ stagesItems pre) ∧
        st1.nLookPath = st.nLookPath + pre.length ∧
        st1.lastExitCode = st.lastExitCode ∧
        st1.nStart = st.nStart + pre.length + 1 := by
  induction pre with
  | nil =>
    intro items st hopen hstart _
    obtain ⟨tr, h1, h2, h3⟩ := spawnedState_trace env items st
    refine ⟨spawnedState env (itemsState items st), tr, ?_, h1, ?_, h3, ?_, ?_, ?_, ?_⟩
    · rw [List.nil_append, runStages_cons_enter env items s later st
        (by simpa [stagesItems] using hopen) (hstart _ (by simp))]
    · simpa using h2
    · simp [spawnedState, itemsState, stagesItems]
    · simp [spawnedState, itemsState]
    · simp [spawnedState, itemsState]
    · simp [spawnedState, itemsState]
  | cons s0 pre ih =>
    intro items st hopen hstart hlook
    have hred : redirs (items ++ stagesItems (s0 :: pre))
        = redirs items + redirs (s0.items ++ stagesItems pre) := by
      simp [stagesItems, redirs_append]
    obtain ⟨path, hpath⟩ := Option.isSome_iff_exists.1 (hlook st.nLookPath (by simp))
    obtain ⟨tr0, h01, h02, h03⟩ := spawnedState_trace env items st
    rw [List.cons_append, runStages_cons_enter env items s0 (pre ++ s :: later) st
      (fun k hk => hopen k (by rw [hred]; omega)) (hstart _ (by omega))]
    unfold enterStage
    rw [nextStage_ok env s0.cmd path _ (by simpa [spawnedState, itemsState] using hpath)]
    dsimp only
    obtain ⟨st1, tr, h1, h2, h3, h4, h5, h6, h7, h8⟩ := ih s0.items
      (resolvedState s0.cmd path (spawnedState env (itemsState items st)))
      (fun k hk => hopen k (by
        rw [hred]
        simpa [resolvedState, spawnedState, itemsState, Nat.add_assoc] using hk))
      (fun k hk => hstart k (by
        simp only [resolvedState, spawnedState, itemsState] at hk
        simp only [List.length_cons]
        omega))
      (fun k hk => hlook k (by
        simp only [resolvedState, spawnedState, itemsState] at hk
        simp only [List.length_cons]
        omega))
    refine ⟨st1, tr0 ++ [Event.lookPath s0.cmd (some path)] ++ tr,
      ?_, ?_, ?_, ?_, ?_, ?_, ?_, ?_⟩
    · exact h1
    · rw [h2]
      simp only [resolvedState]
      rw [h01]
      simp [List.append_assoc]
    · simp only [spawns_append, List.map_append, h02, h3, spawns, List.map_nil,
        List.append_nil, List.enumFrom_cons, List.map_cons, List.singleton_append]
      simp [resolvedState, spawnedState, itemsState, Stage.argv]
    · simp [waits_append, h03, h4, waits]
    · rw [h5, hred]
      simp [resolvedState, spawnedState, itemsState, Nat.add_assoc]
    · rw [h6]
      simp only [resolvedState, spawnedState, itemsState, List.length_cons]
      omega
    · rw [h7]
      rfl
    · rw [h8]
      simp only [resolvedState, spawnedState, itemsState, List.length_cons]
      omega

theorem applyItems_append (env : Env) (a b : List Item) (st : State) :
    applyItems env (a ++ b) st =
      match applyItems env a st with
      | .inl out => .inl out
      | .inr st1 => applyItems env b st1 := by
  induction a generalizing st with
  | nil => rfl
  | cons it a ih =>
    simp only [List.cons_append, applyItems]
    cases applyItem env it st with
    | inl out => rfl
    | inr st1 => exact ih st1

/-- The first failing open of a stage ends `processCmd`: nothing more is
started or waited for. -/
theorem runStages_open_fail (env : Env) (items : List Item) (later : List Stage) (st : State)
    (ipre ipost : List Item) (it : Item) (hitems : items = ipre ++ it :: ipost)
    (hit : it.isRedir = true)
    (hopen : ∀ k, k < st.nOpen + redirs ipre → env.openFile k = true)
    (hfail : env.openFile (st.nOpen + redirs ipre) = false) :
    ∃ tr, runStages env items later st = .returned st.lastExitCode (st.trace ++ tr) ∧
      spawns tr = [] ∧ waits tr = [] := by
  have happly : ∃ tr, applyItems env items st
      = .inl (.returned st.lastExitCode (st.trace ++ tr)) ∧ spawns tr = [] ∧ waits tr = [] := by
    subst hitems
    rw [applyItems_append, applyItems_ok env ipre st hopen]
    have hf : env.openFile (itemsState ipre st).nOpen = false := by
      simpa [itemsState] using hfail
    cases it with
    | arg tok => simp [Item.isRedir] at hit
    | stdin name =>
      refine ⟨(itemsOpens st.nOpen ipre).map openEvent ++
        [Event.openFile name [OpenFlag.O_RDONLY] none, Event.stderr msgStdin] ++
        (itemsState ipre st).deferred.map Event.close, ?_, ?_, ?_⟩
      · simp only [applyItems, applyItem, redirectStdin, hf]
        simp [State.ret, itemsState, List.append_assoc]
      · simp only [spawns_append, spawns_openEvent, spawns_close, spawns]
        rfl
      · simp only [waits_append, waits_openEvent, waits_close, waits]
        rfl
    | stdout name =>
      refine ⟨(itemsOpens st.nOpen ipre).map openEvent ++
        [Event.openFile name stdoutFlags none, Event.stderr msgStdout] ++
        (itemsState ipre st).deferred.map Event.close, ?_, ?_, ?_⟩
      · simp only [applyItems, applyItem, redirectStdout, hf]
        simp [State.ret, itemsState, List.append_assoc]
      · simp only [spawns_append, spawns_openEvent, spawns_close, spawns]
        rfl
      · simp only [waits_append, waits_openEvent, waits_close, waits]
        rfl
  obtain ⟨tr, h1, h2, h3⟩ := happly
  refine ⟨tr, ?_, h2, h3⟩
  cases later <;> simp [runStages, h1]

/-- Entering a stage whose resolution or whose first failing open ends
`processCmd`: nothing more is started or waited for. -/
theorem enterStage_fail (env : Env) (s : Stage) (later : List Stage) (st : State)
    (hfail : env.lookPath st.nLookPath = none ∨
      ((env.lookPath st.nLookPath).isSome = true ∧
        ∃ ipre it ipost, s.items = ipre ++ it :: ipost ∧ it.isRedir = true ∧
          (∀ k, k < st.nOpen + redirs ipre → env.openFile k = true) ∧
          env.openFile (st.nOpen + redirs ipre) = false)) :
    ∃ tr, enterStage env s later st = .returned st.lastExitCode (st.trace ++ tr) ∧
      spawns tr = [] ∧ waits tr = [] := by
  rcases hfail with hnone | ⟨hsome, ipre, it, ipost, hitems, hit, hopen, hf⟩
  · refine ⟨[Event.lookPath s.cmd none, Event.stderr msgResolving] ++
      st.deferred.map Event.close, ?_, ?_, ?_⟩
    · simp [enterStage, nextStage, hnone, State.ret]
    · simp [spawns_append, spawns_close, spawns]
    · simp [waits_append, waits_close, waits]
  · obtain ⟨path, hpath⟩ := Option.isSome_iff_exists.1 hsome
    obtain ⟨tr, h1, h2, h3⟩ := runStages_open_fail env s.items later
      (resolvedState s.cmd path st) ipre ipost it hitems hit
      (by simpa [resolvedState] using hopen) (by simpa [resolvedState] using hf)
    refine ⟨[Event.lookPath s.cmd (some path)] ++ tr, ?_, ?_, ?_⟩
    · unfold enterStage
      rw [nextStage_ok env s.cmd path st hpath]
      dsimp only
      rw [h1]
      simp [resolvedState, List.append_assoc]
    · simp [spawns_append, h2, spawns]
    · simp [waits_append, h3, waits]

/-- Claim C11, amended: in a well-formed pipeline whose first failure is the
resolution of the executable of stage `N` or the opening of a redirection file
of stage `N` (the stages before it, `done`, being resolved, redirected and
spawned with success), `processCmd` returns with `lastExitCode` unchanged
and waits for nothing; the processes it has started are exactly those of the
stages of `done`, in order: none for stage `N` or a later stage, and none at all
only when `N` is the first stage. -/
theorem processCmd_failure_keeps_earlier_stages (env : Env) (v : Int) (done : List Stage)
    (sN : Stage) (post : List Stage)
    (hwf : ∀ s ∈ done ++ sN :: post, s.WF)
    (hlook : ∀ k, k < done.length → (env.lookPath k).isSome = true)
    (hopen : ∀ k, k < redirs (stagesItems done) → env.openFile k = true)
    (hstart : ∀ k, k < done.length → env.startProcess k = true)
    (hfail : env.lookPath done.length = none ∨
      ((env.lookPath done.length).isSome = true ∧
        ∃ ipre it ipost, sN.items = ipre ++ it :: ipost ∧ it.isRedir = true ∧
          (∀ k, k < redirs (stagesItems done) + redirs ipre → env.openFile k = true) ∧
          env.openFile (redirs (stagesItems done) + redirs ipre) = false)) :
    ∃ tr, processCmd env v (stagesTokens (done ++ sN :: post)) = .returned v tr ∧
      (spawns tr).map (fun s => (s.1, s.2.1)) = (done.map Stage.argv).enum ∧
      waits tr = [] := by
  cases done with
  | nil =>
    simp only [List.nil_append, stagesTokens]
    rw [processCmd_pipelineTokens env v sN post (hwf sN (by simp))
      (fun s hs => hwf s (by simp [hs]))]
    simp only [List.length_nil, stagesItems, List.flatMap_nil, redirs, Nat.zero_add] at hfail
    rcases hfail with hnone | ⟨hsome, ipre, it, ipost, hitems, hit, hop, hf⟩
    · rw [hnone]
      exact ⟨_, rfl, rfl, rfl⟩
    · obtain ⟨path, hpath⟩ := Option.isSome_iff_exists.1 hsome
      rw [hpath]
      dsimp only
      obtain ⟨tr, h1, h2, h3⟩ := runStages_open_fail env sN.items post
        (initState v sN.cmd path) ipre ipost it hitems hit
        (by simpa [initState] using hop) (by simpa [initState] using hf)
      refine ⟨(initState v sN.cmd path).trace ++ tr, by rw [h1]; rfl, ?_, ?_⟩
      · simp [spawns_append, h2, initState, spawns]
      · simp [waits_append, h3, initState, waits]
  | cons first pre =>
    obtain ⟨path, hpath⟩ := Option.isSome_iff_exists.1 (hlook 0 (by simp))
    have hrun := processCmd_pipelineTokens env v first (pre ++ sN :: post)
      (hwf first (by simp))
      (fun s hs => hwf s (by simp only [List.cons_append, List.mem_cons]; exact Or.inr hs))
    rw [hpath] at hrun
    dsimp only at hrun
    obtain ⟨st1, tr, h1, h2, h3, h4, h5, h6, h7, _⟩ := runStages_enter env sN post pre first.items
      (initState v first.cmd path)
      (fun k hk => hopen k (by simpa [initState, stagesItems] using hk))
      (fun k hk => hstart k (by simpa [initState] using hk))
      (fun k hk => hlook k (by simp only [initState] at hk; simp only [List.length_cons]; omega))
    have hO : st1.nOpen = redirs (stagesItems (first :: pre)) := by
      rw [h5]
      simp [initState, stagesItems]
    have hL : st1.nLookPath = (first :: pre).length := by
      rw [h6]
      simp only [initState, List.length_cons]
      omega
    obtain ⟨tr2, g1, g2, g3⟩ := enterStage_fail env sN post st1
      (by rw [hO, hL]; exact hfail)
    refine ⟨(initState v first.cmd path).trace ++ tr ++ tr2, ?_, ?_, ?_⟩
    · simp only [List.cons_append, stagesTokens]
      rw [hrun, h1, g1, h2, h7]
      rfl
    · simp only [spawns_append, List.map_append, h3, g2]
      simp [initState, spawns, List.enum, Stage.argv]
    · simp [waits_append, h4, g3, initState, waits]

/-- Witness of the amended C11 on `a | b < missing` where the open fails: `a`
has been started, `b` has not. -/
theorem processCmd_failure_keeps_earlier_stages_witness :
    ∃ tr, processCmd (envScript [some "/bin/a".toList, some "/bin/b".toList] [0] (fun _ => 0)) 4
          (stagesTokens ([Stage.mk "a".toList []] ++
            Stage.mk "b".toList [Item.stdin "missing".toList] :: []))
        = .returned 4 tr ∧
      (spawns tr).map (fun s => (s.1, s.2.1))
        = ([Stage.mk "a".toList []].map Stage.argv).enum ∧
      waits tr = [] :=
  processCmd_failure_keeps_earlier_stages
    (envScript [some "/bin/a".toList, some "/bin/b".toList] [0] (fun _ => 0)) 4
    [Stage.mk "a".toList []] (Stage.mk "b".toList [Item.stdin "missing".toList]) []
    (by decide) (by decide) (by decide) (by decide)
    (Or.inr ⟨by decide, [], Item.stdin "missing".toList, [], rfl, rfl, by decide, by decide⟩)

/-! ## The argument vectors and the pipe bindings of the stages -/

theorem runStages_argv (env : Env) (later : List Stage) (items : List Item) (st : State)
    (hopen : ∀ k, k < st.nOpen + redirs (items ++ stagesItems later) → env.openFile k = true)
    (hstart : ∀ k, k < st.nStart + later.length + 1 → env.startProcess k = true)
    (hlook : ∀ k, k < st.nLookPath + later.length → (env.lookPath k).isSome = true) :
    ∃ e tr, runStages env items later st = .returned e (st.trace ++ tr) ∧
      (spawns tr).map (fun s => s.2.1)
        = (st.processedTokens ++ itemsArgs items) :: later.map Stage.argv := by
  rcases List.eq_nil_or_concat later with rfl | ⟨pre, s, rfl⟩
  · obtain ⟨tr, h1, h2, _⟩ := runStages_single_ok env items st
      (by simpa [stagesItems] using hopen) (hstart _ (by simp))
    exact ⟨_, tr, h1, by simp [h2]⟩
  · simp only [List.concat_eq_append] at hopen hstart hlook ⊢
    have hred : redirs (items ++ stagesItems (pre ++ [s]))
        = redirs (items ++ stagesItems pre) + redirs s.items := by
      simp [stagesItems, redirs_append, Nat.add_assoc]
    rw [List.length_append, List.length_singleton] at hstart hlook
    rw [hred] at hopen
    obtain ⟨st1, tr, h1, h2, h3, _, h5, h6, _, h8⟩ := runStages_enter env s [] pre items st
      (fun k hk => hopen k (by omega)) (fun k hk => hstart k (by omega))
      (fun k hk => hlook k (by omega))
    obtain ⟨path, hpath⟩ := Option.isSome_iff_exists.1 (hlook st1.nLookPath (by omega))
    obtain ⟨tr2, g1, g2, _⟩ := runStages_single_ok env s.items (resolvedState s.cmd path st1)
      (fun k hk => hopen k (by simp only [resolvedState, h5] at hk; omega))
      (hstart _ (by simp only [resolvedState, h8]; omega))
    refine ⟨ExitCode (env.wait (resolvedState s.cmd path st1).nStart),
      tr ++ [Event.lookPath s.cmd (some path)] ++ tr2, ?_, ?_⟩
    · rw [h1]
      unfold enterStage
      rw [nextStage_ok env s.cmd path st1 hpath]
      dsimp only
      rw [g1]
      simp [resolvedState, h2, List.append_assoc]
    · have h3' : (spawns tr).map (fun s => s.2.1)
          = (st.processedTokens ++ itemsArgs items) :: pre.map Stage.argv := by
        have := congrArg (List.map Prod.snd) h3
        simp only [List.map_map] at this
        rw [List.enumFrom_map_snd] at this
        rw [← this]
        rfl
      simp only [spawns_append, List.map_append, h3', g2, spawns]
      simp [resolvedState, Stage.argv]

/-- Claim C18: on a well-formed pipeline on which every resolution, open and
spawn succeeds, `processCmd` returns and the argument vectors of the processes
it has started are, stage by stage, the command-name token followed by the plain
tokens of the stage in their order: no `"<"`, `">"` or `"|"` operator token and
no token following a `"<"` or `">"` (whatever it is) is part of an argv, and
every other token is in the argv of its own stage and in no other. -/
theorem processCmd_argv (env : Env) (v : Int) (first : Stage) (later : List Stage)
    (hwf : ∀ s ∈ first :: later, s.WF)
    (hlook : ∀ k, k < later.length + 1 → (env.lookPath k).isSome = true)
    (hopen : ∀ k, k < redirs (stagesItems (first :: later)) → env.openFile k = true)
    (hstart : ∀ k, k < later.length + 1 → env.startProcess k = true) :
    ∃ e tr, processCmd env v (stagesTokens (first :: later)) = .returned e tr ∧
      (spawns tr).map (fun s => s.2.1) = (first :: later).map Stage.argv := by
  obtain ⟨path, hpath⟩ := Option.isSome_iff_exists.1 (hlook 0 (by simp))
  have hrun := processCmd_pipelineTokens env v first later (hwf first (by simp))
    (fun s hs => hwf s (by simp [hs]))
  rw [hpath] at hrun
  dsimp only at hrun
  obtain ⟨e, tr, h1, h2⟩ := runStages_argv env later first.items (initState v first.cmd path)
    (fun k hk => hopen k (by simpa [initState, stagesItems] using hk))
    (fun k hk => hstart k (by simpa [initState] using hk))
    (fun k hk => hlook k (by simp only [initState] at hk; omega))
  refine ⟨e, (initState v first.cmd path).trace ++ tr, ?_, ?_⟩
  · simp only [stagesTokens]
    rw [hrun, h1]
  · rw [spawns_append, List.map_append, h2]
    simp [initState, spawns, Stage.argv]

/-- Witness of C18: the tokens `["cmd", ">", "out", "x"]` start one process with
argv `["cmd", "x"]`, and so do `["cmd", ">", "|", "x"]`. -/
theorem processCmd_argv_witness :
    (∃ e tr, processCmd (envScript [some "/bin/cmd".toList] [] (fun _ => 0)) 0
          ["cmd".toList, ">".toList, "out".toList, "x".toList] = .returned e tr ∧
        (spawns tr).map (fun s => s.2.1) = [["cmd".toList, "x".toList]]) ∧
    (∃ e tr, processCmd (envScript [some "/bin/cmd".toList] [] (fun _ => 0)) 0
          ["cmd".toList, ">".toList, "|".toList, "x".toList] = .returned e tr ∧
        (spawns tr).map (fun s => s.2.1) = [["cmd".toList, "x".toList]]) :=
  ⟨processCmd_argv (envScript [some "/bin/cmd".toList] [] (fun _ => 0)) 0
      (Stage.mk "cmd".toList [Item.stdout "out".toList, Item.arg "x".toList]) []
      (by decide) (by decide) (by decide) (by decide),
   processCmd_argv (envScript [some "/bin/cmd".toList] [] (fun _ => 0)) 0
      (Stage.mk "cmd".toList [Item.stdout "|".toList, Item.arg "x".toList]) []
      (by decide) (by decide) (by decide) (by decide)⟩

theorem stagesItems_cons (s : Stage) (l : List Stage) :
    stagesItems (s :: l) = s.items ++ stagesItems l := by
  simp [stagesItems]

/-- The entry of `stageSpawns` for a stage that is followed by `"|"`. -/
theorem stageSpawns_piped (later : List Stage) :
    ∀ (cur : Stage) (js jp k : Nat) (attrs : ProcAttr) (i : Nat) (s : Stage),
      (cur :: later)[i]? = some s → i < later.length →
      (stageSpawns js jp k attrs [cur.cmd] cur.items later)[i]? =
        some (js + i, s.argv,
          { Files0 := lastStdin (k + redirs (stagesItems ((cur :: later).take i)))
              (if i = 0 then attrs.Files0 else File.pipeRead (jp + i - 1)) s.items
            Files1 := File.pipeWrite (jp + i)
            Files2 := attrs.Files2 }) := by
  induction later with
  | nil =>
    intro cur js jp k attrs i s _ hi
    exact absurd hi (by simp)
  | cons s0 later ih =>
    intro cur js jp k attrs i s hs hi
    cases i with
    | zero =>
      simp only [List.getElem?_cons_zero, Option.some.injEq] at hs
      subst hs
      simp [stageSpawns, Stage.argv, stagesItems, redirs]
    | succ i =>
      simp only [List.getElem?_cons_succ] at hs
      have hi' : i < later.length := by simpa using hi
      have := ih s0 (js + 1) (jp + 1) (k + redirs cur.items)
        { Files0 := File.pipeRead jp, Files1 := lastStdout k attrs.Files1 cur.items,
          Files2 := attrs.Files2 } i s hs hi'
      simp only [stageSpawns, List.getElem?_cons_succ, this, List.take_succ_cons,
        stagesItems_cons cur, redirs_append]
      have e1 : js + 1 + i = js + (i + 1) := by omega
      have e2 : jp + 1 + i = jp + (i + 1) := by omega
      have e3 : k + redirs cur.items + redirs (stagesItems (List.take i (s0 :: later)))
          = k + (redirs cur.items + redirs (stagesItems (List.take i (s0 :: later)))) := by
        omega
      rw [e1, e2, e3]
      cases i with
      | zero => simp
      | succ j => simp

/-- Pipe bindings when nothing fails: on a well-formed pipeline on which every
resolution, open, pipe creation and spawn succeeds, the process started for
stage `i` (from 0), when
that stage is followed by `"|"`, has the write end of pipe `i` as stdout, even
when the stage's own segment holds a `">"`; its stdin is the binding the stage
had at that point (the handle of the last `"<"` of its segment, otherwise the
read end of the previous pipe, or the interpreter's stdin for the first stage)
and its stderr is the interpreter's. -/
theorem processCmd_pipe_overrides_stdout (env : Env) (v : Int) (first : Stage)
    (later : List Stage)
    (hwf : ∀ s ∈ first :: later, s.WF)
    (hlook : ∀ k, k < later.length + 1 → (env.lookPath k).isSome = true)
    (hopen : ∀ k, k < redirs (stagesItems (first :: later)) → env.openFile k = true)
    (hpipe : ∀ k, k < later.length → env.pipe k = true)
    (hstart : ∀ k, k < later.length + 1 → env.startProcess k = true) :
    ∃ tr, processCmd env v (stagesTokens (first :: later))
        = .returned (ExitCode (env.wait later.length)) tr ∧
      ∀ i s, (first :: later)[i]? = some s → i < later.length →
        (spawns tr)[i]? = some (i, s.argv,
          { Files0 := lastStdin (redirs (stagesItems ((first :: later).take i)))
              (if i = 0 then File.Stdin else File.pipeRead (i - 1)) s.items
            Files1 := File.pipeWrite i
            Files2 := File.Stderr }) := by
  obtain ⟨path, hpath⟩ := Option.isSome_iff_exists.1 (hlook 0 (by simp))
  have hrun := processCmd_pipelineTokens env v first later (hwf first (by simp))
    (fun s hs => hwf s (by simp [hs]))
  rw [hpath] at hrun
  dsimp only at hrun
  obtain ⟨tr, h1, h2, _⟩ := runStages_ok env later first.items (initState v first.cmd path)
    (fun k hk => hopen k (by simpa [initState, stagesItems] using hk))
    (fun k hk => hpipe k (by simpa [initState] using hk))
    (fun k hk => hstart k (by simpa [initState] using hk))
    (fun k hk => hlook k (by simp only [initState] at hk; omega))
  refine ⟨(initState v first.cmd path).trace ++ tr, ?_, ?_⟩
  · simp only [stagesTokens]
    rw [hrun, h1]
    simp [initState]
  · intro i s hs hi
    rw [spawns_append, h2]
    have := stageSpawns_piped later first 0 0 0
      { Files0 := File.Stdin, Files1 := File.Stdout, Files2 := File.Stderr } i s hs hi
    simp only [Nat.zero_add] at this
    simpa [initState, spawns] using this

/-- Example on `a > f | b`: stage `a` is started with the write end of
pipe 0 as stdout, not with the file `f`. -/
theorem processCmd_pipe_overrides_stdout_witness :
    ∃ tr, processCmd (envScript [some "/bin/a".toList, some "/bin/b".toList] [] (fun _ => 0)) 0
        ["a".toList, ">".toList, "f".toList, "|".toList, "b".toList] = .returned 0 tr ∧
      (spawns tr)[0]? = some (0, ["a".toList],
        { Files0 := File.Stdin, Files1 := File.pipeWrite 0, Files2 := File.Stderr }) := by
  obtain ⟨tr, h1, h2⟩ := processCmd_pipe_overrides_stdout
    (envScript [some "/bin/a".toList, some "/bin/b".toList] [] (fun _ => 0)) 0
    (Stage.mk "a".toList [Item.stdout "f".toList]) [Stage.mk "b".toList []]
    (by decide) (by decide) (by decide) (by decide) (by decide)
  exact ⟨tr, h1, h2 0 _ rfl (by decide)⟩

/-! ## A failing `os.Pipe` or `os.StartProcess` -/

/-- Claim C12 fails on the code: on `a | b`, when `os.Pipe` fails, `processCmd`
only reports `"Creating pipe: "` and goes on; stage `a`, which is followed by
`"|"`, is started with a nil stdout instead of a pipe's write end (and `b` with
a nil stdin). -/
theorem processCmd_pipe_failure_nil_stdout :
    spawns (processCmd (envPipeFail [some "/bin/a".toList, some "/bin/b".toList] [0]
        (fun _ => 0)) 0 (tokenize 0 "a | b".toList)).trace
      = [(0, ["a".toList],
          { Files0 := File.Stdin, Files1 := File.nil, Files2 := File.Stderr }),
         (1, ["b".toList],
          { Files0 := File.nil, Files1 := File.Stdout, Files2 := File.Stderr })] ∧
    diagnostics (processCmd (envPipeFail [some "/bin/a".toList, some "/bin/b".toList] [0]
        (fun _ => 0)) 0 (tokenize 0 "a | b".toList)).trace
      = ["Creating pipe: ".toList] := by
  decide

/-- Counterexample to C13: on the line `ls`, when `ls` resolves and
`os.StartProcess` fails, `processCmd` spawns no process. -/
theorem processCmd_no_operators_counterexample :
    processCmd (envStartFail [some "/bin/ls".toList] [0] (fun _ => 0)) 0 ["ls".toList]
      = .returned 0
          [Event.lookPath "ls".toList (some "/bin/ls".toList),
           Event.startProcess "/bin/ls".toList ["ls".toList]
             { Files0 := File.Stdin, Files1 := File.Stdout, Files2 := File.Stderr } none,
           Event.stderr "Forking process: ".toList] ∧
    spawns (processCmd (envStartFail [some "/bin/ls".toList] [0] (fun _ => 0)) 0
        ["ls".toList]).trace = [] := by
  decide

end GShell
